import Mathlib

/-!
Verification development for the jira-issue-api Rust crate.

The crate is a typed HTTP client for a ticket-tracking REST service.  This
file gives a shallow embedding of the pieces the claims are about:

* `src/client.rs` — `JiraClientError`, `Credential`, `JiraClientConfig`,
  `JiraAPIClient` (header building, URL construction, `query_issues`,
  `post_worklog`, `get_assignable_users`).
* `src/models.rs` / `src/types.rs` — `IssueKey` and `WorklogDuration`
  together with their fallible `TryFrom<String>` parsers built on the
  regexes `([A-Z]{2,}-[0-9]+)` and `([0-9]+(?:\.[0-9]+)?)[WwDdHhMm]?`.

Modelling conventions:

* Rust `String` is Lean `String`; character-level work happens on
  `List Char`.  `str::to_uppercase` / `to_lowercase` are modelled
  character-wise on the ASCII range.
* The two regexes are embedded as explicit leftmost scanners whose
  semantics (try each start position left to right; at a position the
  greedy run of a character class is taken, which for these patterns is
  the only run a backtracking engine could accept) coincide with the
  `regex` crate on these patterns.
* the `f64` pipeline of the worklog parser — correctly rounded decimal
  parse, IEEE multiplication by the conversion factor, `format!` at
  precision 0 — is modelled bit-faithfully for the nonnegative values
  it can produce: doubles are dyadic values `m * 2 ^ s` (or infinity)
  and every rounding step is 53-bit round half to even with the
  subnormal floor and overflow of IEEE 754 binary64.
* The network is a collaborator: an operation that sends a request is a
  pure function from the client, its inputs and the reply of the transport
  (`HttpResponse`) to the classified result.  The reply carries the
  status code, the header list and the result of serde decoding.
-/

/-- Model of `JiraClientError` from src/client.rs.  `reqwest::Error` payloads are
abstracted as strings. -/
inductive JiraClientError where
  | HttpError (msg : String)
  | JiraRequestBodyError (msg : String)
  | JiraResponseDeserializeError (msg : String)
  | ConfigError (msg : String)
  | UrlParseError (msg : String)
  | TryFromError (msg : String)
  | UnknownError (msg : String)
deriving Repr, DecidableEq

/-! ### Character classes and case mapping

The regex classes `[A-Z]` and `[0-9]` and the (ASCII fragment of the)
Rust `to_uppercase` / `to_lowercase` maps, written over `Char.toNat` so
that proofs stay in `Nat`. -/

/-- The regex class `[A-Z]`. -/
def chIsUpper (c : Char) : Bool := decide (65 ≤ c.toNat ∧ c.toNat ≤ 90)

/-- The regex class `[0-9]`. -/
def chIsDigit (c : Char) : Bool := decide (48 ≤ c.toNat ∧ c.toNat ≤ 57)

/-- Model of `str::to_uppercase`, character-wise, on the ASCII range.
The source applies the full Unicode table, which also contains
one-to-many mappings (eszett to SS, long s to S); those cannot be
expressed as a character map, so statements that depend on which
substring of a non-ASCII input is matched are outside this embedding.
Statements that only constrain the output of the scanner (every match
satisfies the pattern) are unaffected: the scanner invariant below
holds for every character list, whatever mapping produced it. -/
def rsToUpper (c : Char) : Char :=
  if 97 ≤ c.toNat ∧ c.toNat ≤ 122 then Char.ofNat (c.toNat - 32) else c

/-- Model of `str::to_lowercase`, character-wise, on the ASCII range. -/
def rsToLower (c : Char) : Char :=
  if 65 ≤ c.toNat ∧ c.toNat ≤ 90 then Char.ofNat (c.toNat + 32) else c

/-! ### IssueKey and its parser (src/models.rs, src/types.rs) -/

/-- The `IssueKey` newtype around a `String`.  In src/types.rs the field is
public; in src/models.rs it is private but the type still derives
`Deserialize`. -/
structure IssueKey where
  val : String
deriving Repr, DecidableEq

/-- The derived serde `Deserialize` for the newtype `IssueKey(String)`:
it forwards to the `String` deserializer and wraps the result with no
validation whatsoever. -/
def IssueKey.deserializeStr (s : String) : IssueKey := ⟨s⟩

/-- The `-[0-9]+` tail of `ISSUE_RE`, attempted right after the
uppercase run. -/
def issueAfterRun : List Char → Option (List Char)
  | c :: r2 =>
    if c = '-' then
      if (r2.takeWhile chIsDigit).isEmpty then none
      else some ('-' :: r2.takeWhile chIsDigit)
    else none
  | [] => none

/-- One attempt of the regex `([A-Z]{2,}-[0-9]+)` anchored at the head of
`l`: the greedy run of uppercase letters (the only run that can be
followed by `-`), the literal `-`, then a nonempty greedy digit run. -/
def issueTryAt (l : List Char) : Option (List Char) :=
  if 2 ≤ (l.takeWhile chIsUpper).length then
    (issueAfterRun (l.dropWhile chIsUpper)).map
      (fun tl => l.takeWhile chIsUpper ++ tl)
  else none

/-- Leftmost search of `ISSUE_RE`: try each start position left to
right. -/
def issueFind : List Char → Option (List Char)
  | [] => none
  | c :: r =>
    match issueTryAt (c :: r) with
    | some m => some m
    | none => issueFind r

/-- Model of `impl TryFrom<String> for IssueKey` (src/models.rs lines 445-466):
uppercase the whole input, search `ISSUE_RE`, wrap the matched text.
The `c.get(0)` `None` arm of the source is unreachable (capture 0 is the
whole match) and is not represented.  The case mapping is the ASCII one
of `rsToUpper`; see its comment for the scope this implies. -/
def upperChars (s : String) : List Char := s.toList.map rsToUpper

def IssueKey.tryFrom (value : String) : Except JiraClientError IssueKey :=
  match issueFind (upperChars value) with
  | some m => .ok ⟨String.mk m⟩
  | none => .error (.TryFromError "Malformed issue key supplied")

/-- Specification-side predicate: `l` consists exactly of two or more
uppercase letters, a hyphen, and one or more digits. -/
def issueTail : List Char → Bool
  | c :: ds => c == '-' && !ds.isEmpty && ds.all chIsDigit
  | [] => false

def isIssueExact (l : List Char) : Bool :=
  decide (2 ≤ (l.takeWhile chIsUpper).length) && issueTail (l.dropWhile chIsUpper)

/-! ### WorklogDuration and its parser (src/models.rs, src/types.rs) -/

/-- The `WorklogDuration` newtype: seconds as text. -/
structure WorklogDuration where
  val : String
deriving Repr, DecidableEq

/-- Characters accepted by the optional unit class `[WwDdHhMm]` of
`WORKLOG_RE`. -/
def isUnitChar (c : Char) : Bool :=
  c = 'W' || c = 'w' || c = 'D' || c = 'd' || c = 'H' || c = 'h' || c = 'M' || c = 'm'

/-- The optional trailing `[WwDdHhMm]?` of `WORKLOG_RE`. -/
def wlUnit : List Char → List Char
  | c :: _ => if isUnitChar c then [c] else []
  | [] => []

/-- The optional fraction `(?:\.[0-9]+)?` (a dot followed by a nonempty
greedy digit run) and the optional unit, matched after the integer
part. -/
def wlFracUnit : List Char → List Char
  | c :: r =>
    if c = '.' ∧ ¬(r.takeWhile chIsDigit).isEmpty then
      '.' :: (r.takeWhile chIsDigit ++ wlUnit (r.dropWhile chIsDigit))
    else wlUnit (c :: r)
  | [] => []

/-- One attempt of `([0-9]+(?:\.[0-9]+)?)[WwDdHhMm]?` anchored at the
head of `l`: a nonempty greedy digit run, then fraction and unit. -/
def wlTryAt (l : List Char) : Option (List Char) :=
  if (l.takeWhile chIsDigit).isEmpty then none
  else some (l.takeWhile chIsDigit ++ wlFracUnit (l.dropWhile chIsDigit))

/-- Leftmost search of `WORKLOG_RE`. -/
def wlFind : List Char → Option (List Char)
  | [] => none
  | c :: r =>
    match wlTryAt (c :: r) with
    | some m => some m
    | none => wlFind r

/-- Value of a digit run, most significant first. -/
def digitsToNat (l : List Char) : Nat :=
  l.foldl (fun a c => 10 * a + (c.toNat - '0'.toNat)) 0

/-- The decimal-reading half of `str::parse::<f64>`, for the digit/dot
strings reachable from the worklog regex: the digit value `n` together
with the number `d` of fraction digits, so that the exact decimal value
of the text is `n / 10 ^ d`.  `f64OfDec` below then rounds that exact
value to the nearest double, completing the model of the parse.  (Signs,
exponents and named values, which the regex can never produce, are
refused; the parse fails on exactly the same strings in the source.) -/
def parseDec (l : List Char) : Option (Nat × Nat) :=
  match l.dropWhile chIsDigit with
  | [] =>
    if (l.takeWhile chIsDigit).isEmpty then none
    else some (digitsToNat (l.takeWhile chIsDigit), 0)
  | c :: fr =>
    if c = '.' then
      if (l.takeWhile chIsDigit).isEmpty && fr.isEmpty then none
      else if fr.all chIsDigit then some (digitsToNat (l.takeWhile chIsDigit ++ fr), fr.length)
      else none
    else none

/-- Round the nonnegative exact value `n / q` to the nearest integer,
ties to even — the rounding used both by IEEE 754 operations (on scaled
significands) and by Rust `format!` at a fixed precision. -/
def roundHalfEven (n q : Nat) : Nat :=
  let a := n / q
  let r := n % q
  if 2 * r < q then a
  else if q < 2 * r then a + 1
  else if a % 2 = 0 then a else a + 1

/-! ### IEEE 754 double precision

The worklog parser computes `parse::<f64>() * f64::from(multiplier)`
and prints the product with `format!` at precision 0.  All values on
this path are nonnegative, so a double is modelled as either infinity
or a finite dyadic value `m * 2 ^ s`; the two rounding steps (the
correctly rounded decimal parse and the IEEE multiplication) are
implemented exactly over `Nat`/`Int` arithmetic with round half to
even, 53-bit significands, exponents clamped to the subnormal floor
`2 ^ -1074`, and overflow to infinity.  NaN and negative values are
unreachable and not represented. -/

/-- Fuel-driven floor of the base-2 logarithm. -/
def log2Fuel : Nat → Nat → Nat
  | 0, _ => 0
  | fuel + 1, n => if n ≤ 1 then 0 else log2Fuel fuel (n / 2) + 1

/-- Floor of the base-2 logarithm (0 at 0). -/
def natLog2 (n : Nat) : Nat := log2Fuel n n

/-- A finite nonnegative double: the value `m * 2 ^ s`. -/
structure Dyadic where
  m : Nat
  s : Int
deriving Repr, DecidableEq

/-- A nonnegative `f64` value as reachable in the worklog pipeline. -/
inductive F64 where
  | inf
  | val (dy : Dyadic)
deriving Repr, DecidableEq

/-- Does `2 ^ e ≤ n / 10 ^ d` hold?  (For `n ≥ 1`.) -/
def pow2le10 (e : Int) (n d : Nat) : Bool :=
  if 0 ≤ e then decide (2 ^ e.toNat * 10 ^ d ≤ n)
  else decide (10 ^ d ≤ n * 2 ^ (-e).toNat)

/-- Floor of the base-2 logarithm of the value `n / 10 ^ d` (for
`n ≥ 1`): the bit-length estimate corrected by one comparison. -/
def decExp (n d : Nat) : Int :=
  if pow2le10 ((natLog2 n : Int) - (natLog2 (10 ^ d) : Int)) n d then
    (natLog2 n : Int) - (natLog2 (10 ^ d) : Int)
  else (natLog2 n : Int) - (natLog2 (10 ^ d) : Int) - 1

/-- Exponent of the least significant bit of the rounded significand:
52 below the leading bit, clamped at the subnormal floor. -/
def sigExp (e : Int) : Int := max (e - 52) (-1074)

/-- The significand of `n / 10 ^ d` at scale `2 ^ s`, rounded half to
even. -/
def decSig (n d : Nat) (s : Int) : Nat :=
  if 0 ≤ s then roundHalfEven n (10 ^ d * 2 ^ s.toNat)
  else roundHalfEven (n * 2 ^ (-s).toNat) (10 ^ d)

/-- Pack a rounded significand and scale into a double, detecting
overflow to infinity (value `2 ^ 1024` or more). -/
def mkF64 (m : Nat) (s : Int) : F64 :=
  if m = 0 then .val ⟨0, 0⟩
  else if 1024 ≤ s + (natLog2 m : Int) then .inf
  else .val ⟨m, s⟩

/-- Correctly rounded decimal-to-double conversion: the second half of
`str::parse::<f64>`, rounding the exact value `n / 10 ^ d` to the
nearest double (ties to even), with underflow through the subnormal
range and overflow to infinity. -/
def f64OfDec (n d : Nat) : F64 :=
  if n = 0 then .val ⟨0, 0⟩
  else mkF64 (decSig n d (sigExp (decExp n d))) (sigExp (decExp n d))

/-- The significand of the exact product `m0 * 2 ^ s0` at scale
`2 ^ s`: an exact shift when `s ≤ s0`, a rounding otherwise. -/
def mulSig (m0 : Nat) (s0 s : Int) : Nat :=
  if s ≤ s0 then m0 * 2 ^ (s0 - s).toNat
  else roundHalfEven m0 (2 ^ (s - s0).toNat)

/-- IEEE 754 multiplication of a double by the (small, exactly
representable) conversion factor: round the exact product to 53 bits,
ties to even, with the same subnormal floor and overflow. -/
def f64MulNat (a : F64) (k : Nat) : F64 :=
  match a with
  | .inf => .inf
  | .val dy =>
    if dy.m * k = 0 then .val ⟨0, 0⟩
    else
      mkF64 (mulSig (dy.m * k) dy.s (sigExp (dy.s + (natLog2 (dy.m * k) : Int))))
        (sigExp (dy.s + (natLog2 (dy.m * k) : Int)))

/-- Rust `format!` at precision 0 applied to a double: the exact value
of the double rounded to an integer, ties to even; infinity prints as
`inf`. -/
def f64Fmt0 : F64 → String
  | .inf => "inf"
  | .val dy =>
    if 0 ≤ dy.s then toString (dy.m * 2 ^ dy.s.toNat)
    else toString (roundHalfEven dy.m (2 ^ (-dy.s).toNat))

/-- The `worklog.pop()` step of the source: remove the last character
and select the seconds multiplier from it, pushing the character back
when it is a digit (the unit was omitted).  When the string is empty
(`pop` returns `None`, the catch-all arm of the source) the string is kept
and the multiplier defaults to 60; the subsequent number parse then
fails exactly as in the source. -/
def wlPop (w : List Char) : List Char × Nat :=
  match w.getLast? with
  | none => (w, 60)
  | some c =>
    if c = 'm' then (w.dropLast, 60)
    else if c = 'h' then (w.dropLast, 3600)
    else if c = 'd' then (w.dropLast, 3600 * 8)
    else if c = 'w' then (w.dropLast, 3600 * 8 * 5)
    else if chIsDigit c then (w.dropLast ++ [c], 60)
    else (w.dropLast, 60)

/-- Model of `impl TryFrom<String> for WorklogDuration` (src/models.rs lines
71-108): search `WORKLOG_RE`, lowercase the match, pop the trailing
character to select the multiplier, parse the remaining number to a
double (`parseDec` for the decimal reading, `f64OfDec` for the correctly
rounded conversion), multiply in double precision and format the product
with precision 0. -/
def WorklogDuration.tryFrom (value : String) : Except JiraClientError WorklogDuration :=
  match wlFind value.toList with
  | none => .error (.TryFromError "Malformed worklog duration")
  | some m =>
    match parseDec (wlPop (m.map rsToLower)).1 with
    | none => .error (.TryFromError "Unexpected worklog duration input")
    | some nd =>
      .ok ⟨f64Fmt0 (f64MulNat (f64OfDec nd.1 nd.2) (wlPop (m.map rsToLower)).2)⟩

/-! ### Credential and header building (src/client.rs lines 36-89) -/

/-- Supported authentication methods. -/
inductive Credential where
  | Anonymous
  | ApiToken (login token : String)
  | PersonalAccessToken (token : String)
deriving Repr, DecidableEq

/-- UTF-8 bytes of one character (byte values as `Nat`). -/
def utf8Char (c : Char) : List Nat :=
  let n := c.toNat
  if n < 0x80 then [n]
  else if n < 0x800 then [0xC0 + n / 0x40, 0x80 + n % 0x40]
  else if n < 0x10000 then
    [0xE0 + n / 0x1000, 0x80 + (n / 0x40) % 0x40, 0x80 + n % 0x40]
  else
    [0xF0 + n / 0x40000, 0x80 + (n / 0x1000) % 0x40, 0x80 + (n / 0x40) % 0x40, 0x80 + n % 0x40]

/-- UTF-8 bytes of a string, as the base64 engine consumes them. -/
def utf8Bytes (s : String) : List Nat :=
  s.toList.flatMap utf8Char

/-- The standard base64 alphabet. -/
def b64Alphabet : List Char :=
  "ABCDEFGHIJKLMNOPQRSTUVWXYZabcdefghijklmnopqrstuvwxyz0123456789+/".toList

def b64Char (n : Nat) : Char := b64Alphabet.getD n 'A'

/-- Model of `base64::engine::general_purpose::STANDARD_NO_PAD.encode`: standard
alphabet, no padding characters. -/
def encodeB64 : List Nat → List Char
  | b1 :: b2 :: b3 :: rest =>
    let w := b1 * 65536 + b2 * 256 + b3
    b64Char (w / 262144) :: b64Char ((w / 4096) % 64) :: b64Char ((w / 64) % 64) ::
      b64Char (w % 64) :: encodeB64 rest
  | [b1, b2] =>
    let w := b1 * 1024 + b2 * 4
    [b64Char (w / 4096), b64Char ((w / 64) % 64), b64Char (w % 64)]
  | [b1] =>
    let w := b1 * 16
    [b64Char (w / 64), b64Char (w % 64)]
  | [] => []

/-- One entry of a `reqwest` `HeaderMap`, with the sensitivity mark of
`HeaderValue`. -/
structure Header where
  name : String
  value : String
  sensitive : Bool
deriving Repr, DecidableEq

/-- Model of `HeaderMap::insert`: any previous entry for the name is replaced. -/
def hmInsert (m : List Header) (h : Header) : List Header :=
  h :: m.filter (fun x => x.name ≠ h.name)

/-- Lookup of a header by name. -/
def hmGet (m : List Header) (n : String) : Option Header :=
  m.find? (fun x => x.name = n)

/-- Model of `JiraAPIClient::build_headers` (src/client.rs lines 61-89): compute
the optional Authorization value from the credential, insert Accept and
Content-Type set to `application/json`, then insert the Authorization
header marked sensitive when present. -/
def buildHeaders (credentials : Credential) : List Header :=
  let headerContent := "application/json"
  let authHeader : Option String :=
    match credentials with
    | .Anonymous => none
    | .ApiToken userLogin apiToken =>
      some ("Basic " ++ String.mk (encodeB64 (utf8Bytes (userLogin ++ ":" ++ apiToken))))
    | .PersonalAccessToken token => some ("Bearer " ++ token)
  let headers := hmInsert (hmInsert [] ⟨"Accept", headerContent, false⟩)
    ⟨"Content-Type", headerContent, false⟩
  match authHeader with
  | some v => hmInsert headers ⟨"Authorization", v, true⟩
  | none => headers

/-! ### URLs (the `url` crate as used by src/client.rs)

Restricted model of `reqwest::Url` for absolute http(s) URLs without
userinfo, port, percent-encoding or IDNA — the shapes this client
manipulates.  `Url::join` is modelled only for references that start
with `/` (an absolute path), which is the only kind of reference the
client ever joins. -/

structure Url where
  scheme : String
  host : String
  path : String
  query : Option String
  fragment : Option String
deriving Repr, DecidableEq

/-- Split a character list at the first character satisfying `p`; the
second component starts with that character (or is empty). -/
def splitAtFirst (p : Char → Bool) : List Char → List Char × List Char
  | [] => ([], [])
  | c :: r =>
    if p c then ([], c :: r)
    else
      let (a, b) := splitAtFirst p r
      (c :: a, b)

/-- Split the path / query / fragment part of a URL or reference
(everything after the authority). -/
def splitPathQueryFrag (l : List Char) : String × Option String × Option String :=
  let (pth, r1) := splitAtFirst (fun c => c = '?' || c = '#') l
  let path := if pth.isEmpty then "/" else String.mk pth
  match r1 with
  | '?' :: r2 =>
    let (q, r3) := splitAtFirst (fun c => c = '#') r2
    match r3 with
    | '#' :: fr => (path, some (String.mk q), some (String.mk fr))
    | _ => (path, some (String.mk q), none)
  | '#' :: fr => (path, none, some (String.mk fr))
  | _ => (path, none, none)

/-- Model of `Url::parse`: scheme, `://`, authority, then path, query and
fragment.  An absent path is normalized to `/`. -/
def parseUrl (s : String) : Option Url :=
  let (sch, r1) := splitAtFirst (fun c => c = ':') s.toList
  match r1 with
  | ':' :: '/' :: '/' :: r2 =>
    if sch.isEmpty then none
    else
      let (auth, r3) := splitAtFirst (fun c => c = '/' || c = '?' || c = '#') r2
      if auth.isEmpty then none
      else
        let (path, q, fr) := splitPathQueryFrag r3
        some ⟨String.mk sch, String.mk auth, path, q, fr⟩
  | _ => none

/-- Model of `Url::join` for an absolute-path reference: scheme and authority are
kept, and the path, query and fragment of the reference replace those of the
base (RFC 3986 section 5.3).  The client only ever joins such
references. -/
def urlJoin (base : Url) (ref : String) : Option Url :=
  match ref.toList with
  | c :: rest =>
    if c = '/' then
      some { base with path := (splitPathQueryFrag (c :: rest)).1,
                       query := (splitPathQueryFrag (c :: rest)).2.1,
                       fragment := (splitPathQueryFrag (c :: rest)).2.2 }
    else none
  | [] => none

/-- Model of `Url::set_query(Some(q))`. -/
def setQuery (u : Url) (q : String) : Url := { u with query := some q }

/-! ### The client and its operations (src/client.rs) -/

/-- Model of `JiraClientConfig`. -/
structure JiraClientConfig where
  credential : Credential
  maxQueryResults : Nat
  url : String
  timeout : Nat
  tlsAcceptInvalidCerts : Bool
deriving Repr, DecidableEq

/-- Model of `JiraAPIClient`.  The `reqwest::Client` handle is represented by the
default header set installed on it at build time. -/
structure JiraAPIClient where
  url : Url
  version : String
  clientHeaders : List Header
  maxResults : Nat
deriving Repr, DecidableEq

/-- Model of `JiraAPIClient::new` (src/client.rs lines 116-132): build the
transport with the default headers of the credential, then parse the
configured URL verbatim — the parsed URL is stored as is.  (The
transport-level failure of `ClientBuilder::build`, which yields
`ConfigError`, is a collaborator failure and is not modelled.) -/
def JiraAPIClient.new (cfg : JiraClientConfig) : Except JiraClientError JiraAPIClient :=
  match parseUrl cfg.url with
  | none => .error (.UrlParseError "relative URL without a base")
  | some u =>
    .ok { url := u
          version := "latest"
          clientHeaders := buildHeaders cfg.credential
          maxResults := cfg.maxQueryResults }

/-- Model of `PostIssueQueryBody` as constructed by `query_issues` in
src/client.rs lines 142-147: `fields` is a plain list there and no
`expand` member is set.  (src/types.rs declares a later generation of
this struct with optional `fields`/`expand`; the construction site in
client.rs is the code that decides the search-request claims.) -/
structure PostIssueQueryBody where
  jql : String
  startAt : Nat
  maxResults : Nat
  fields : List String
deriving Repr, DecidableEq

/-- An issue of a search response.  Response-only attributes that no
claim touches (the field map, custom fields, names) are elided. -/
structure Issue where
  key : IssueKey
  selfRef : String
deriving Repr, DecidableEq

/-- Model of `PostIssueQueryResponseBody`: the paged search envelope; every
attribute is optional. -/
structure PostIssueQueryResponseBody where
  expand : Option String
  issues : Option (List Issue)
  maxResults : Option Nat
  startAt : Option Nat
  total : Option Nat
  names : Option (List (String × String))
deriving Repr, DecidableEq

/-- A transport reply: status code, response headers, and the result of
`response.json::<PostIssueQueryResponseBody>()` (`none` when the body
does not decode). -/
structure HttpResponse where
  status : Nat
  headers : List (String × String)
  bodyDecoded : Option PostIssueQueryResponseBody
deriving Repr, DecidableEq

/-- The search request body built by `query_issues` (src/client.rs lines
142-147): `start_at` is the literal `0`, `max_results` comes from the
client, `fields` is the literal `["summary"]`. -/
def queryIssuesBody (client : JiraAPIClient) (query : String) : PostIssueQueryBody :=
  { jql := query
    startAt := 0
    maxResults := client.maxResults
    fields := ["summary"] }

/-- The search URL built by `query_issues` (src/client.rs lines
138-141). -/
def queryIssuesUrl (client : JiraAPIClient) : Option Url :=
  urlJoin client.url "/rest/api/latest/search"

/-- Model of `JiraAPIClient::query_issues` (src/client.rs lines 134-161): build
the search URL and body, POST, then decode the reply.  Neither the
status code nor any response header is inspected: the result depends on
the reply only through `bodyDecoded`. -/
def JiraAPIClient.queryIssues (client : JiraAPIClient) (query : String)
    (resp : HttpResponse) : Except JiraClientError PostIssueQueryResponseBody :=
  match queryIssuesUrl client with
  | none => .error (.UrlParseError "join failed")
  | some _searchUrl =>
    let _body := queryIssuesBody client query
    match resp.bodyDecoded with
    | some b => .ok b
    | none => .error (.JiraResponseDeserializeError "error decoding response body")

/-- Model of `PostWorklogBody` (src/models.rs lines 51-56). -/
structure PostWorklogBody where
  comment : String
  started : String
  timeSpent : Option String
  timeSpentSeconds : Option String
deriving Repr, DecidableEq

/-- Model of `JiraAPIClient::post_worklog` (src/client.rs lines 163-192): build
the worklog URL, reject a body in which `time_spent` and
`time_spent_seconds` are both set or both unset, otherwise POST the
body.  An `ok` result is the dispatched request (URL and body); the
validation error is returned before anything is sent.  (The source
message contains quoted `Some()`/`None`; the quote characters are
omitted here.) -/
def JiraAPIClient.postWorklog (client : JiraAPIClient) (issueKey : IssueKey)
    (body : PostWorklogBody) : Except JiraClientError (Url × PostWorklogBody) :=
  match urlJoin client.url ("/rest/api/latest/issue/" ++ issueKey.val ++ "/worklog") with
  | none => .error (.UrlParseError "join failed")
  | some worklogUrl =>
    if (body.timeSpent.isSome && body.timeSpentSeconds.isSome)
        || (!body.timeSpent.isSome && !body.timeSpentSeconds.isSome) then
      .error (.JiraRequestBodyError "time_spent and time_spent_seconds are both Some() or None")
    else
      .ok (worklogUrl, body)

/-- Model of `GetAssignableUserParams` (src/models.rs lines 34-39). -/
structure GetAssignableUserParams where
  username : Option String
  project : Option String
  issueKey : Option IssueKey
  maxResults : Option Nat
deriving Repr, DecidableEq

/-- URL construction of `JiraAPIClient::get_assignable_users`
(src/client.rs lines 260-290).  `cloud` reflects the compile-time
`cloud` cargo feature (it selects the `query=` versus `username=`
parameter name).  The query string starts from
`maxResults=<params.max_results or 1000>`; the validation error is
raised when both `project` and `issue_key` are absent; then the
`issueKey`, `username` and `project` parameters are appended in that
order and the query is installed with `set_query`.  The subsequent GET
and `Vec<User>` decoding play no role in any claim and are elided. -/
def getAssignableUsersUrl (client : JiraAPIClient) (params : GetAssignableUserParams)
    (cloud : Bool) : Except JiraClientError Url :=
  match urlJoin client.url "/rest/api/latest/user/assignable/search" with
  | none => .error (.UrlParseError "join failed")
  | some usersUrl =>
    let query := "maxResults=" ++ toString (params.maxResults.getD 1000)
    if params.project.isNone && params.issueKey.isNone then
      .error (.JiraRequestBodyError
        "Both project and issue_key are None, define either to query for assignable users.")
    else
      let query := match params.issueKey with
        | some issueKey => query ++ "&issueKey=" ++ issueKey.val
        | none => query
      let query := match params.username with
        | some username =>
          if cloud then query ++ "&query=" ++ username
          else query ++ "&username=" ++ username
        | none => query
      let query := match params.project with
        | some project => query ++ "&project=" ++ project
        | none => query
      .ok (setQuery usersUrl query)

/-! ### First-match specification for `ISSUE_RE`

An index-level description of "the first substring of `l` matching the
pattern": a start position `i` before which no position admits a match,
together with the longest match length `k` at that position.  This is
the specification the scanner is proved against. -/

/-- The substring of `l` starting at `i` of length `k`. -/
def subAt (l : List Char) (i k : Nat) : List Char := (l.drop i).take k

/-- Some substring starting at position `i` matches the pattern
exactly. -/
def existsKeyAt (l : List Char) (i : Nat) : Bool :=
  (List.range ((l.drop i).length + 1)).any (fun k => isIssueExact (subAt l i k))

/-- No position of `l` starts a match. -/
def noKeyAnywhere (l : List Char) : Bool :=
  (List.range (l.length + 1)).all (fun j => !existsKeyAt l j)

/-- Predicate: `subAt l i k` is the first match: it matches, no earlier position
admits a match, and `k` is the largest matching length at `i`. -/
def firstKeyMatch (l : List Char) (i k : Nat) : Bool :=
  isIssueExact (subAt l i k) &&
  (List.range i).all (fun j => !existsKeyAt l j) &&
  decide (k ≤ (l.drop i).length) &&
  (List.range ((l.drop i).length + 1)).all
    (fun kk => !isIssueExact (subAt l i kk) || decide (kk ≤ k))

/-- The fraction part of the input, as written in the raw string. -/
def wlInputFrac : Option (List Char) → List Char
  | some fs => '.' :: fs
  | none => []

/-- The unit part of the input. -/
def wlInputUnit : Option Char → List Char
  | some u => [u]
  | none => []

/-- Seconds-per-unit table of the specification: minutes by default,
`m`/`h`/`d`/`w` case-insensitively. -/
def specMult : Option Char → Nat
  | none => 60
  | some c =>
    if rsToLower c = 'm' then 60
    else if rsToLower c = 'h' then 3600
    else if rsToLower c = 'd' then 28800
    else if rsToLower c = 'w' then 144000
    else 60

/-! ### Concrete fixtures used by the claim counterexamples -/

/-- A configuration with an API-token (non-anonymous) credential whose
base URL carries a path, a query and a fragment. -/
def cfgApi : JiraClientConfig :=
  { credential := .ApiToken "user" "tok"
    maxQueryResults := 50
    url := "https://example.com/foo?bar#baz"
    timeout := 10
    tlsAcceptInvalidCerts := false }

/-- The client `JiraAPIClient::new` builds from `cfgApi`. -/
def clientApi : JiraAPIClient :=
  { url := ⟨"https", "example.com", "/foo", some "bar", some "baz"⟩
    version := "latest"
    clientHeaders := buildHeaders (.ApiToken "user" "tok")
    maxResults := 50 }

/-- A status-200 reply carrying both anonymous-downgrade diagnostic
headers and a decodable (empty) search envelope. -/
def downgradeResp : HttpResponse :=
  { status := 200
    headers := [("X-Seraph-LoginReason", "AUTHENTICATED_FAILED"), ("X-AUSERNAME", "anonymous")]
    bodyDecoded := some ⟨none, none, none, none, none, none⟩ }

/-- The query parameters `get_assignable_users` appends after the
`maxResults` pair: `issueKey`, then `username` (spelled `query` under
the cloud feature), then `project`. -/
def assignableSuffix (params : GetAssignableUserParams) (cloud : Bool) : String :=
  (match params.issueKey with
   | some issueKey => "&issueKey=" ++ issueKey.val
   | none => "") ++
  ((match params.username with
    | some username =>
      if cloud then "&query=" ++ username else "&username=" ++ username
    | none => "") ++
  (match params.project with
   | some project => "&project=" ++ project
   | none => ""))

example : WorklogDuration.tryFrom "1" = .ok ⟨"60"⟩ := rfl
example : WorklogDuration.tryFrom "1H" = .ok ⟨"3600"⟩ := rfl
example : WorklogDuration.tryFrom "1d" = .ok ⟨"28800"⟩ := rfl
example : WorklogDuration.tryFrom "1W" = .ok ⟨"144000"⟩ := rfl
example : WorklogDuration.tryFrom "2H" = .ok ⟨"7200"⟩ := rfl
example : WorklogDuration.tryFrom "1.5h" = .ok ⟨"5400"⟩ := rfl
example : WorklogDuration.tryFrom "abc" = .error (.TryFromError "Malformed worklog duration") := rfl
example : WorklogDuration.tryFrom "abc 5m" = .ok ⟨"300"⟩ := rfl
example : WorklogDuration.tryFrom "9007199254740993" = .ok ⟨"540431955284459520"⟩ := rfl
example : WorklogDuration.tryFrom "9007199254740992" = .ok ⟨"540431955284459520"⟩ := rfl
example : WorklogDuration.tryFrom "0" = .ok ⟨"0"⟩ := rfl
example : WorklogDuration.tryFrom "0.1m" = .ok ⟨"6"⟩ := rfl
example : IssueKey.tryFrom "jb-1" = .ok ⟨"JB-1"⟩ := rfl
example : IssueKey.tryFrom "see JB-42 for details" = .ok ⟨"JB-42"⟩ := rfl
example : IssueKey.tryFrom "nope" = .error (.TryFromError "Malformed issue key supplied") := rfl

example : String.mk (encodeB64 (utf8Bytes "a:b")) = "YTpi" := rfl

example : parseUrl "https://example.com/foo?bar#baz" =
    some ⟨"https", "example.com", "/foo", some "bar", some "baz"⟩ := rfl
example : parseUrl "https://example.com" =
    some ⟨"https", "example.com", "/", none, none⟩ := rfl
example : (parseUrl "https://example.com/foo?bar#baz").bind
    (fun u => urlJoin u "/rest/api/latest/search") =
    some ⟨"https", "example.com", "/rest/api/latest/search", none, none⟩ := rfl

/-! ### Helper lemmas: characters and list scans -/

theorem chIsDigit_rsToLower {c : Char} (h : chIsDigit c = true) : rsToLower c = c := by
  simp only [chIsDigit, decide_eq_true_eq] at h
  simp only [rsToLower]
  rw [if_neg]
  omega

theorem chIsDigit_all_rsToLower {l : List Char} (h : l.all chIsDigit = true) :
    l.map rsToLower = l := by
  induction l with
  | nil => rfl
  | cons c r ih =>
    simp only [List.all_cons, Bool.and_eq_true] at h
    simp [chIsDigit_rsToLower h.1, ih h.2]

theorem isUnitChar_not_digit {c : Char} (h : isUnitChar c = true) : chIsDigit c = false := by
  simp only [isUnitChar, Bool.or_eq_true, decide_eq_true_eq] at h
  rcases h with (((((((h | h) | h) | h) | h) | h) | h) | h) <;> subst h <;> decide

theorem chIsDigit_ne_unit {c : Char} (h : chIsDigit c = true) :
    c ≠ 'm' ∧ c ≠ 'h' ∧ c ≠ 'd' ∧ c ≠ 'w' := by
  refine ⟨?_, ?_, ?_, ?_⟩ <;> rintro rfl <;> simp [chIsDigit] at h

theorem takeWhile_append_all {p : Char → Bool} {xs : List Char} (ys : List Char)
    (h : xs.all p = true) : (xs ++ ys).takeWhile p = xs ++ ys.takeWhile p := by
  induction xs with
  | nil => rfl
  | cons c r ih =>
    simp only [List.all_cons, Bool.and_eq_true] at h
    simp [List.takeWhile_cons, h.1, ih h.2]

theorem dropWhile_append_all {p : Char → Bool} {xs : List Char} (ys : List Char)
    (h : xs.all p = true) : (xs ++ ys).dropWhile p = ys.dropWhile p := by
  induction xs with
  | nil => rfl
  | cons c r ih =>
    simp only [List.all_cons, Bool.and_eq_true] at h
    simp [List.dropWhile_cons, h.1, ih h.2]

/-- An all-`p` list that continues with a non-`p` character is exactly
the `takeWhile p` of the whole. -/
theorem takeWhile_closed {p : Char → Bool} {xs : List Char} {c : Char} (ys : List Char)
    (hall : xs.all p = true) (hc : p c = false) :
    (xs ++ c :: ys).takeWhile p = xs := by
  rw [takeWhile_append_all _ hall, List.takeWhile_cons_of_neg (by simp [hc]), List.append_nil]

theorem dropWhile_closed {p : Char → Bool} {xs : List Char} {c : Char} (ys : List Char)
    (hall : xs.all p = true) (hc : p c = false) :
    (xs ++ c :: ys).dropWhile p = c :: ys := by
  rw [dropWhile_append_all _ hall, List.dropWhile_cons_of_neg (by simp [hc])]

/-- A prefix that is all `p` is no longer than the `takeWhile p`. -/
theorem length_le_takeWhile {p : Char → Bool} :
    ∀ {d xs : List Char}, (∃ t, xs = d ++ t) → d.all p = true →
      d.length ≤ (xs.takeWhile p).length := by
  intro d
  induction d with
  | nil => intro xs _ _; exact Nat.zero_le _
  | cons c r ih =>
    intro xs h hall
    obtain ⟨t, rfl⟩ := h
    simp only [List.all_cons, Bool.and_eq_true] at hall
    simp only [List.cons_append, List.takeWhile_cons_of_pos hall.1, List.length_cons]
    exact Nat.succ_le_succ (ih ⟨t, rfl⟩ hall.2)

theorem take_length_of_append {m t : List Char} : (m ++ t).take m.length = m :=
  List.take_left m t

/-! ### Lemmas about the `ISSUE_RE` scanner -/

theorem isIssueExact_of_parts {us ds : List Char} (hu : us.all chIsUpper = true)
    (h2 : 2 ≤ us.length) (hd : ds ≠ []) (hdall : ds.all chIsDigit = true) :
    isIssueExact (us ++ '-' :: ds) = true := by
  have hdash : chIsUpper '-' = false := by decide
  unfold isIssueExact
  rw [takeWhile_closed _ hu hdash, dropWhile_closed _ hu hdash]
  simp only [issueTail, Bool.and_eq_true, decide_eq_true_eq, beq_self_eq_true,
    Bool.not_eq_true', true_and]
  refine ⟨h2, ?_, hdall⟩
  cases ds with
  | nil => exact absurd rfl hd
  | cons c r => rfl

theorem isIssueExact_parts {l : List Char} (h : isIssueExact l = true) :
    ∃ us ds, l = us ++ '-' :: ds ∧ us.all chIsUpper = true ∧ 2 ≤ us.length ∧
      ds ≠ [] ∧ ds.all chIsDigit = true := by
  unfold isIssueExact at h
  rw [Bool.and_eq_true, decide_eq_true_eq] at h
  obtain ⟨h2, harm⟩ := h
  rcases hdw : l.dropWhile chIsUpper with _ | ⟨c, ds⟩
  · rw [hdw] at harm; simp [issueTail] at harm
  · rw [hdw] at harm
    simp only [issueTail, Bool.and_eq_true, Bool.not_eq_true', beq_iff_eq] at harm
    obtain ⟨⟨hc, hds⟩, hdall⟩ := harm
    subst hc
    refine ⟨l.takeWhile chIsUpper, ds, ?_, List.all_takeWhile, h2, ?_, hdall⟩
    · conv_lhs => rw [← List.takeWhile_append_dropWhile chIsUpper l]
      rw [hdw]
    · intro hnil; subst hnil; simp at hds

theorem issueTryAt_shape {us ds : List Char} (t : List Char)
    (hu : us.all chIsUpper = true) (h2 : 2 ≤ us.length)
    (hd : ds ≠ []) (hdall : ds.all chIsDigit = true) :
    issueTryAt (us ++ '-' :: (ds ++ t)) =
      some (us ++ '-' :: (ds ++ t.takeWhile chIsDigit)) := by
  have hdash : chIsUpper '-' = false := by decide
  have htw := takeWhile_closed (p := chIsUpper) (ds ++ t) hu hdash
  have hdw := dropWhile_closed (p := chIsUpper) (ds ++ t) hu hdash
  have hne : ((ds ++ t).takeWhile chIsDigit).isEmpty ≠ true := by
    rw [takeWhile_append_all _ hdall]
    cases ds with
    | nil => exact absurd rfl hd
    | cons c r => simp
  unfold issueTryAt
  rw [htw, hdw, if_pos h2]
  simp only [issueAfterRun, if_pos rfl, if_neg hne, Option.map_some']
  rw [takeWhile_append_all _ hdall]
  simp

theorem issueTryAt_sound {l m : List Char} (h : issueTryAt l = some m) :
    (∃ t, l = m ++ t) ∧ isIssueExact m = true := by
  unfold issueTryAt at h
  by_cases h2 : 2 ≤ (l.takeWhile chIsUpper).length
  · rw [if_pos h2] at h
    rcases hdw : l.dropWhile chIsUpper with _ | ⟨c, r2⟩
    · rw [hdw] at h; exact absurd h (by simp [issueAfterRun])
    · rw [hdw] at h
      by_cases hc : c = '-'
      · subst hc
        by_cases hempty : (r2.takeWhile chIsDigit).isEmpty = true
        · rw [show issueAfterRun ('-' :: r2) = none by
            simp [issueAfterRun, hempty]] at h
          exact absurd h (by simp)
        · rw [show issueAfterRun ('-' :: r2) = some ('-' :: r2.takeWhile chIsDigit) by
            simp [issueAfterRun, hempty]] at h
          simp only [Option.map_some', Option.some.injEq] at h
          subst h
          constructor
          · refine ⟨r2.dropWhile chIsDigit, ?_⟩
            conv_lhs => rw [← List.takeWhile_append_dropWhile chIsUpper l]
            rw [hdw]
            simp only [List.cons_append, List.append_assoc,
              List.takeWhile_append_dropWhile]
          · refine isIssueExact_of_parts List.all_takeWhile h2 ?_ List.all_takeWhile
            intro hnil
            rw [hnil] at hempty
            exact hempty rfl
      · rw [show issueAfterRun (c :: r2) = none by simp [issueAfterRun, hc]] at h
        exact absurd h (by simp)
  · rw [if_neg h2] at h; exact absurd h (by simp)

theorem issueTryAt_of_exact {l m t : List Char} (hl : l = m ++ t)
    (hm : isIssueExact m = true) : ∃ m2, issueTryAt l = some m2 := by
  obtain ⟨us, ds, rfl, hu, h2, hd, hdall⟩ := isIssueExact_parts hm
  subst hl
  rw [List.append_assoc, List.cons_append]
  exact ⟨_, issueTryAt_shape t hu h2 hd hdall⟩

theorem issueTryAt_max {l m m' t' : List Char} (h : issueTryAt l = some m)
    (hl : l = m' ++ t') (hm' : isIssueExact m' = true) : m'.length ≤ m.length := by
  obtain ⟨us, ds, rfl, hu, h2, hd, hdall⟩ := isIssueExact_parts hm'
  subst hl
  rw [List.append_assoc, List.cons_append] at h
  rw [issueTryAt_shape t' hu h2 hd hdall] at h
  injection h with hm
  subst hm
  simp [List.length_append]

theorem issueFind_sound {l m : List Char} (h : issueFind l = some m) :
    ∃ i, issueTryAt (l.drop i) = some m ∧ ∀ j, j < i → issueTryAt (l.drop j) = none := by
  induction l with
  | nil => simp [issueFind] at h
  | cons c r ih =>
    rw [issueFind] at h
    rcases htry : issueTryAt (c :: r) with _ | m'
    · rw [htry] at h
      obtain ⟨i, h1, hnone⟩ := ih h
      refine ⟨i + 1, by simpa using h1, ?_⟩
      intro j hj
      cases j with
      | zero => simpa using htry
      | succ j' => simpa using hnone j' (Nat.lt_of_succ_lt_succ hj)
    · rw [htry] at h
      simp only [Option.some.injEq] at h
      subst h
      exact ⟨0, by simpa using htry, by intro j hj; omega⟩

theorem issueFind_complete {l : List Char} (i : Nat)
    (h : issueTryAt (l.drop i) ≠ none) : ∃ m, issueFind l = some m := by
  induction l generalizing i with
  | nil =>
    exfalso
    apply h
    rw [List.drop_nil]
    rfl
  | cons c r ih =>
    rcases htry : issueTryAt (c :: r) with _ | m'
    · cases i with
      | zero => rw [List.drop_zero] at h; exact absurd htry h
      | succ i' =>
        obtain ⟨m, hm⟩ := ih i' (by simpa using h)
        exact ⟨m, by rw [issueFind, htry]; exact hm⟩
    · exact ⟨m', by rw [issueFind, htry]⟩

theorem issueFind_none {l : List Char} (h : issueFind l = none) (i : Nat) :
    issueTryAt (l.drop i) = none := by
  by_contra hne
  obtain ⟨m, hm⟩ := issueFind_complete i hne
  rw [h] at hm
  exact absurd hm (by simp)

theorem existsKeyAt_of {l : List Char} {i : Nat} {m t : List Char}
    (hpre : l.drop i = m ++ t) (hm : isIssueExact m = true) :
    existsKeyAt l i = true := by
  simp only [existsKeyAt, List.any_eq_true, List.mem_range]
  refine ⟨m.length, ?_, ?_⟩
  · rw [hpre]; simp only [List.length_append]; omega
  · rw [subAt, hpre, take_length_of_append]; exact hm

theorem existsKeyAt_to {l : List Char} {i : Nat} (h : existsKeyAt l i = true) :
    ∃ m t, l.drop i = m ++ t ∧ isIssueExact m = true := by
  simp only [existsKeyAt, List.any_eq_true, List.mem_range] at h
  obtain ⟨k, _, hk⟩ := h
  exact ⟨(l.drop i).take k, (l.drop i).drop k, (List.take_append_drop k _).symm, hk⟩

theorem tryAt_isSome_of_existsKeyAt {l : List Char} {i : Nat}
    (h : existsKeyAt l i = true) : issueTryAt (l.drop i) ≠ none := by
  obtain ⟨m, t, hpre, hm⟩ := existsKeyAt_to h
  obtain ⟨m2, hm2⟩ := issueTryAt_of_exact hpre hm
  simp [hm2]

theorem existsKeyAt_of_tryAt {l : List Char} {i : Nat} {m : List Char}
    (h : issueTryAt (l.drop i) = some m) : existsKeyAt l i = true := by
  obtain ⟨⟨t, hpre⟩, hm⟩ := issueTryAt_sound h
  exact existsKeyAt_of hpre hm

/-- The scanner returns exactly the first match. -/
theorem issueFind_first {l : List Char} {i k : Nat}
    (h : firstKeyMatch l i k = true) : issueFind l = some (subAt l i k) := by
  simp only [firstKeyMatch, Bool.and_eq_true, decide_eq_true_eq, List.all_eq_true,
    List.mem_range, Bool.not_eq_true', Bool.or_eq_true] at h
  obtain ⟨⟨⟨hexact, hbefore⟩, hkle⟩, hmax⟩ := h
  have htryne : issueTryAt (l.drop i) ≠ none := by
    apply tryAt_isSome_of_existsKeyAt
    exact existsKeyAt_of (List.take_append_drop k (l.drop i)).symm hexact
  obtain ⟨m, hm⟩ := issueFind_complete i htryne
  obtain ⟨i0, htry0, hnone0⟩ := issueFind_sound hm
  have hii : i0 = i := by
    rcases Nat.lt_trichotomy i0 i with hlt | heq | hgt
    · exfalso
      have hek : existsKeyAt l i0 = true := existsKeyAt_of_tryAt htry0
      have := hbefore i0 hlt
      rw [hek] at this
      cases this
    · exact heq
    · exact absurd (hnone0 i hgt) htryne
  subst hii
  obtain ⟨⟨t, hpre⟩, hexm⟩ := issueTryAt_sound htry0
  have hlen1 : m.length ≤ k := by
    have hmem : m.length < (l.drop i0).length + 1 := by
      rw [hpre]; simp only [List.length_append]; omega
    have hexm' : isIssueExact (subAt l i0 m.length) = true := by
      rw [subAt, hpre, take_length_of_append]; exact hexm
    rcases hmax m.length hmem with hfalse | hle
    · rw [hexm'] at hfalse; cases hfalse
    · exact hle
  have hlen2 : k ≤ m.length := by
    have hmx := issueTryAt_max htry0 (List.take_append_drop k (l.drop i0)).symm hexact
    calc k = ((l.drop i0).take k).length := by
            rw [List.length_take, Nat.min_eq_left hkle]
      _ ≤ m.length := hmx
  have hmk : m = subAt l i0 k := by
    have hk' : m.length = k := Nat.le_antisymm hlen1 hlen2
    rw [subAt, ← hk', hpre, take_length_of_append]
  rw [hm, hmk]

/-- When no position starts a match, the scanner fails. -/
theorem issueFind_eq_none {l : List Char} (h : noKeyAnywhere l = true) :
    issueFind l = none := by
  rcases hf : issueFind l with _ | m
  · rfl
  · exfalso
    obtain ⟨i, htry, _⟩ := issueFind_sound hf
    have hek : existsKeyAt l i = true := existsKeyAt_of_tryAt htry
    have hib : i < l.length + 1 := by
      by_contra hgt
      have hdrop : l.drop i = [] := List.drop_eq_nil_of_le (by omega)
      rw [hdrop] at htry
      have : issueTryAt ([] : List Char) = none := rfl
      rw [this] at htry
      exact Option.noConfusion htry
    simp only [noKeyAnywhere, List.all_eq_true, List.mem_range, Bool.not_eq_true'] at h
    have := h i hib
    rw [hek] at this
    cases this

/-! ### Lemmas about the `WORKLOG_RE` scanner -/

theorem takeWhile_all_eq {p : Char → Bool} {l : List Char} (h : l.all p = true) :
    l.takeWhile p = l := by
  induction l with
  | nil => rfl
  | cons c r ih =>
    simp only [List.all_cons, Bool.and_eq_true] at h
    simp [List.takeWhile_cons_of_pos h.1, ih h.2]

theorem dropWhile_all_eq {p : Char → Bool} {l : List Char} (h : l.all p = true) :
    l.dropWhile p = [] := by
  induction l with
  | nil => rfl
  | cons c r ih =>
    simp only [List.all_cons, Bool.and_eq_true] at h
    simp [List.dropWhile_cons_of_pos h.1, ih h.2]

theorem wlTryAt_none_head {c : Char} (r : List Char) (h : chIsDigit c = false) :
    wlTryAt (c :: r) = none := by
  unfold wlTryAt
  rw [List.takeWhile_cons_of_neg (by simp [h])]
  rfl

theorem wlFind_none {l : List Char} (h : ∀ c ∈ l, chIsDigit c = false) :
    wlFind l = none := by
  induction l with
  | nil => rfl
  | cons c r ih =>
    rw [wlFind, wlTryAt_none_head r (h c (by simp))]
    exact ih (fun c hc => h c (by simp [hc]))

theorem wlFind_head_digit {c : Char} (r : List Char) (h : chIsDigit c = true) :
    wlFind (c :: r) = wlTryAt (c :: r) := by
  rw [wlFind]
  rcases htry : wlTryAt (c :: r) with _ | m
  · exfalso
    unfold wlTryAt at htry
    rw [List.takeWhile_cons_of_pos h] at htry
    simp at htry
  · rfl

theorem wlTryAt_shape {ds rest : List Char} (hds : ds ≠ [])
    (hall : ds.all chIsDigit = true) (hrest : rest.takeWhile chIsDigit = []) :
    wlTryAt (ds ++ rest) = some (ds ++ wlFracUnit rest) := by
  have htw : (ds ++ rest).takeWhile chIsDigit = ds := by
    rw [takeWhile_append_all _ hall, hrest, List.append_nil]
  have hdw : (ds ++ rest).dropWhile chIsDigit = rest := by
    rw [dropWhile_append_all _ hall]
    cases rest with
    | nil => rfl
    | cons c r =>
      rw [List.takeWhile_cons] at hrest
      by_cases hc : chIsDigit c = true
      · rw [if_pos hc] at hrest; cases hrest
      · rw [List.dropWhile_cons_of_neg (by simp [hc])]
  unfold wlTryAt
  rw [htw, hdw, if_neg]
  cases ds with
  | nil => exact absurd rfl hds
  | cons c r => simp

theorem dropWhile_eq_self_of_takeWhile_nil {p : Char → Bool} {l : List Char}
    (h : l.takeWhile p = []) : l.dropWhile p = l := by
  cases l with
  | nil => rfl
  | cons c r =>
    rw [List.takeWhile_cons] at h
    by_cases hc : p c = true
    · rw [if_pos hc] at h; cases h
    · rw [List.dropWhile_cons_of_neg (by simp [hc])]

theorem isUnitChar_ne_dot {u : Char} (hu : isUnitChar u = true) : u ≠ '.' := by
  intro h
  subst h
  simp [isUnitChar] at hu

theorem wlUnit_unit {u : Char} (hu : isUnitChar u = true) (t : List Char) :
    wlUnit (u :: t) = [u] := by
  rw [wlUnit, if_pos hu]

theorem wlFracUnit_unit {u : Char} (hu : isUnitChar u = true) :
    wlFracUnit [u] = [u] := by
  rw [wlFracUnit, if_neg, wlUnit_unit hu]
  rintro ⟨h1, _⟩
  exact isUnitChar_ne_dot hu h1

theorem wlFracUnit_frac {fs : List Char} (t : List Char) (hfs : fs ≠ [])
    (hall : fs.all chIsDigit = true) (hrest : t.takeWhile chIsDigit = []) :
    wlFracUnit ('.' :: (fs ++ t)) = '.' :: (fs ++ wlUnit t) := by
  have htw : (fs ++ t).takeWhile chIsDigit = fs := by
    rw [takeWhile_append_all _ hall, hrest, List.append_nil]
  have hdw : (fs ++ t).dropWhile chIsDigit = t := by
    rw [dropWhile_append_all _ hall, dropWhile_eq_self_of_takeWhile_nil hrest]
  rw [wlFracUnit, if_pos, htw, hdw]
  refine ⟨rfl, ?_⟩
  rw [htw]
  cases fs with
  | nil => exact absurd rfl hfs
  | cons c r => simp

theorem wlFind_whole {ds : List Char} {frac : Option (List Char)} {u : Option Char}
    (hds : ds ≠ []) (hall : ds.all chIsDigit = true)
    (hfrac : ∀ fs, frac = some fs → fs ≠ [] ∧ fs.all chIsDigit = true)
    (hu : ∀ c, u = some c → isUnitChar c = true) :
    wlFind (ds ++ (wlInputFrac frac ++ wlInputUnit u)) =
      some (ds ++ (wlInputFrac frac ++ wlInputUnit u)) := by
  have hunit_tw : (wlInputUnit u).takeWhile chIsDigit = [] := by
    rcases u with _ | c
    · rfl
    · rw [wlInputUnit, List.takeWhile_cons_of_neg]
      simp [isUnitChar_not_digit (hu c rfl)]
  have hrest_tw : (wlInputFrac frac ++ wlInputUnit u).takeWhile chIsDigit = [] := by
    rcases frac with _ | fs
    · simpa [wlInputFrac] using hunit_tw
    · rw [wlInputFrac, List.cons_append, List.takeWhile_cons_of_neg]
      decide
  have hfu : wlFracUnit (wlInputFrac frac ++ wlInputUnit u) =
      wlInputFrac frac ++ wlInputUnit u := by
    rcases frac with _ | fs
    · rcases u with _ | c
      · rfl
      · simpa [wlInputFrac, wlInputUnit] using wlFracUnit_unit (hu c rfl)
    · obtain ⟨hfs, hfsall⟩ := hfrac fs rfl
      rw [wlInputFrac, List.cons_append]
      rw [wlFracUnit_frac (wlInputUnit u) hfs hfsall hunit_tw]
      rcases u with _ | c
      · rfl
      · rw [wlInputUnit, wlUnit_unit (hu c rfl)]
  rcases hds' : ds with _ | ⟨d, dr⟩
  · exact absurd hds' hds
  · have hd : chIsDigit d = true := by
      rw [hds'] at hall
      simp only [List.all_cons, Bool.and_eq_true] at hall
      exact hall.1
    rw [← hds']
    have hcons : ds ++ (wlInputFrac frac ++ wlInputUnit u) =
        d :: (dr ++ (wlInputFrac frac ++ wlInputUnit u)) := by rw [hds']; rfl
    rw [hcons, wlFind_head_digit _ hd, ← hcons]
    rw [wlTryAt_shape hds hall hrest_tw, hfu]

theorem rsToLower_dot : rsToLower '.' = '.' := by decide

theorem map_rsToLower_numeric {ds : List Char} (frac : Option (List Char))
    (hall : ds.all chIsDigit = true)
    (hfrac : ∀ fs, frac = some fs → fs.all chIsDigit = true) :
    (ds ++ wlInputFrac frac).map rsToLower = ds ++ wlInputFrac frac := by
  rw [List.map_append, chIsDigit_all_rsToLower hall]
  rcases frac with _ | fs
  · rfl
  · rw [wlInputFrac, List.map_cons, rsToLower_dot, chIsDigit_all_rsToLower (hfrac fs rfl)]

theorem parseDec_digits {ds : List Char} (hds : ds ≠ [])
    (hall : ds.all chIsDigit = true) : parseDec ds = some (digitsToNat ds, 0) := by
  have hne : ds.isEmpty ≠ true := by
    cases ds with
    | nil => exact absurd rfl hds
    | cons c r => simp
  unfold parseDec
  rw [dropWhile_all_eq hall]
  simp only [takeWhile_all_eq hall, if_neg hne]

theorem parseDec_frac {ds fs : List Char} (hds : ds ≠ [])
    (hall : ds.all chIsDigit = true) (hfsall : fs.all chIsDigit = true) :
    parseDec (ds ++ '.' :: fs) = some (digitsToNat (ds ++ fs), fs.length) := by
  have hdot : chIsDigit '.' = false := by decide
  have hne : (ds.isEmpty && fs.isEmpty) ≠ true := by
    cases ds with
    | nil => exact absurd rfl hds
    | cons c r => simp
  unfold parseDec
  rw [dropWhile_closed _ hall hdot]
  simp only [takeWhile_closed _ hall hdot, if_pos rfl, if_neg hne, if_pos hfsall, if_true]

theorem wlPop_concat (xs : List Char) (c : Char) :
    wlPop (xs ++ [c]) =
      if c = 'm' then (xs, 60)
      else if c = 'h' then (xs, 3600)
      else if c = 'd' then (xs, 3600 * 8)
      else if c = 'w' then (xs, 3600 * 8 * 5)
      else if chIsDigit c then (xs ++ [c], 60)
      else (xs, 60) := by
  unfold wlPop
  rw [List.getLast?_concat, List.dropLast_concat]

theorem rsToLower_unit {uc : Char} (h : isUnitChar uc = true) :
    rsToLower uc = 'w' ∨ rsToLower uc = 'd' ∨ rsToLower uc = 'h' ∨ rsToLower uc = 'm' := by
  simp only [isUnitChar, Bool.or_eq_true, decide_eq_true_eq] at h
  rcases h with (((((((h | h) | h) | h) | h) | h) | h) | h) <;> subst h <;> decide

/-- The lowercase-and-pop step on a whole-grammar match: popping the
lowercased match selects the multiplier of the unit (60 when absent)
and leaves exactly the numeric text. -/
theorem wlPop_eq (ds : List Char) (frac : Option (List Char)) (u : Option Char)
    (hds : ds ≠ []) (hall : ds.all chIsDigit = true)
    (hfrac : ∀ fs, frac = some fs → fs ≠ [] ∧ fs.all chIsDigit = true)
    (hu : ∀ c, u = some c → isUnitChar c = true) :
    wlPop ((ds ++ (wlInputFrac frac ++ wlInputUnit u)).map rsToLower) =
      (ds ++ wlInputFrac frac, specMult u) := by
  have hfrac' : ∀ fs, frac = some fs → fs.all chIsDigit = true :=
    fun fs h => (hfrac fs h).2
  have hlow : (ds ++ wlInputFrac frac).map rsToLower = ds ++ wlInputFrac frac :=
    map_rsToLower_numeric frac hall hfrac'
  rcases u with _ | uc
  · -- no unit: the popped character is the final digit and is pushed back
    simp only [wlInputUnit, List.append_nil]
    rw [hlow]
    rcases frac with _ | fs
    · rcases List.eq_nil_or_concat' ds with rfl | ⟨ds', c, rfl⟩
      · exact absurd rfl hds
      · have hc : chIsDigit c = true := by
          rw [List.all_append] at hall
          simp only [Bool.and_eq_true, List.all_cons, List.all_nil, Bool.and_true] at hall
          exact hall.2
        obtain ⟨hm1, hm2, hm3, hm4⟩ := chIsDigit_ne_unit hc
        simp only [wlInputFrac, List.append_nil]
        rw [wlPop_concat, if_neg hm1, if_neg hm2, if_neg hm3, if_neg hm4, if_pos hc]
        rfl
    · obtain ⟨hfs, hfsall⟩ := hfrac fs rfl
      rcases List.eq_nil_or_concat' fs with rfl | ⟨fs', c, rfl⟩
      · exact absurd rfl hfs
      · have hc : chIsDigit c = true := by
          rw [List.all_append] at hfsall
          simp only [Bool.and_eq_true, List.all_cons, List.all_nil, Bool.and_true] at hfsall
          exact hfsall.2
        obtain ⟨hm1, hm2, hm3, hm4⟩ := chIsDigit_ne_unit hc
        have hshift : ds ++ wlInputFrac (some (fs' ++ [c])) =
            (ds ++ '.' :: fs') ++ [c] := by
          simp [wlInputFrac]
        rw [hshift, wlPop_concat, if_neg hm1, if_neg hm2, if_neg hm3, if_neg hm4,
          if_pos hc, ← hshift]
        rfl
  · -- explicit unit character
    have huc : isUnitChar uc = true := hu uc rfl
    simp only [wlInputUnit]
    rw [show ds ++ (wlInputFrac frac ++ [uc]) = (ds ++ wlInputFrac frac) ++ [uc] from
      (List.append_assoc ds (wlInputFrac frac) [uc]).symm]
    rw [List.map_append, hlow]
    simp only [List.map_cons, List.map_nil]
    rw [wlPop_concat]
    have hspec : specMult (some uc) =
        if rsToLower uc = 'm' then 60
        else if rsToLower uc = 'h' then 3600
        else if rsToLower uc = 'd' then 28800
        else if rsToLower uc = 'w' then 144000
        else 60 := rfl
    rcases rsToLower_unit huc with hlc | hlc | hlc | hlc <;>
      rw [hlc] <;>
      simp only [hspec, hlc, if_pos rfl, if_true, if_neg (by decide : ('w' : Char) ≠ 'm'),
        if_neg (by decide : ('w' : Char) ≠ 'h'), if_neg (by decide : ('w' : Char) ≠ 'd'),
        if_neg (by decide : ('d' : Char) ≠ 'm'), if_neg (by decide : ('d' : Char) ≠ 'h'),
        if_neg (by decide : ('h' : Char) ≠ 'm')]

/-- The parse after the pop: the numeric text reads back as the digit
value of all digits with the fraction length. -/
theorem parseDec_whole (ds : List Char) (frac : Option (List Char))
    (hds : ds ≠ []) (hall : ds.all chIsDigit = true)
    (hfrac : ∀ fs, frac = some fs → fs.all chIsDigit = true) :
    parseDec (ds ++ wlInputFrac frac) =
      some (digitsToNat (ds ++ frac.getD []), (frac.getD []).length) := by
  rcases frac with _ | fs
  · simpa [wlInputFrac] using parseDec_digits hds hall
  · simpa [wlInputFrac] using parseDec_frac hds hall (hfrac fs rfl)

/-- Whole-grammar evaluation of the worklog parser: the input is
consumed entirely, the unit selects the multiplier, and the result is
the precision-0 formatting of the double product. -/
theorem tryFrom_whole_eq (ds : List Char) (frac : Option (List Char)) (u : Option Char)
    (hds : ds ≠ []) (hall : ds.all chIsDigit = true)
    (hfrac : ∀ fs, frac = some fs → fs ≠ [] ∧ fs.all chIsDigit = true)
    (hu : ∀ c, u = some c → isUnitChar c = true) :
    WorklogDuration.tryFrom (String.mk (ds ++ (wlInputFrac frac ++ wlInputUnit u))) =
      .ok ⟨f64Fmt0 (f64MulNat
        (f64OfDec (digitsToNat (ds ++ frac.getD [])) (frac.getD []).length)
        (specMult u))⟩ := by
  have hfind := wlFind_whole hds hall hfrac hu
  have hpop := wlPop_eq ds frac u hds hall hfrac hu
  have hpop1 : (wlPop ((ds ++ (wlInputFrac frac ++ wlInputUnit u)).map rsToLower)).1 =
      ds ++ wlInputFrac frac := by rw [hpop]
  have hpop2 : (wlPop ((ds ++ (wlInputFrac frac ++ wlInputUnit u)).map rsToLower)).2 =
      specMult u := by rw [hpop]
  have hparse := parseDec_whole ds frac hds hall (fun fs h => (hfrac fs h).2)
  unfold WorklogDuration.tryFrom
  rw [show (String.mk (ds ++ (wlInputFrac frac ++ wlInputUnit u))).toList =
        ds ++ (wlInputFrac frac ++ wlInputUnit u) from rfl]
  simp only [hfind, hpop1, hparse, hpop2]

/-! ### Exactness of the double pipeline below `2 ^ 53` -/

theorem log2Fuel_spec : ∀ fuel n : Nat, n ≠ 0 → n ≤ fuel →
    2 ^ log2Fuel fuel n ≤ n ∧ n < 2 ^ (log2Fuel fuel n + 1) := by
  intro fuel
  induction fuel with
  | zero => intro n h0 hle; omega
  | succ fuel ih =>
    intro n h0 hle
    rw [log2Fuel]
    by_cases h1 : n ≤ 1
    · rw [if_pos h1]
      constructor
      · simpa using Nat.one_le_iff_ne_zero.mpr h0
      · simpa using by omega
    · rw [if_neg h1]
      have h2 : 2 ≤ n := by omega
      obtain ⟨hl, hr⟩ := ih (n / 2) (by omega) (by omega)
      constructor
      · rw [pow_succ]
        omega
      · rw [show log2Fuel fuel (n / 2) + 1 + 1 = (log2Fuel fuel (n / 2) + 1) + 1 from rfl,
          pow_succ]
        omega

theorem natLog2_spec {n : Nat} (h : n ≠ 0) :
    2 ^ natLog2 n ≤ n ∧ n < 2 ^ (natLog2 n + 1) :=
  log2Fuel_spec n n h le_rfl

theorem natLog2_unique {n k : Nat} (h1 : 2 ^ k ≤ n) (h2 : n < 2 ^ (k + 1)) :
    natLog2 n = k := by
  have h0 : n ≠ 0 := by
    have := Nat.one_le_two_pow (n := k)
    omega
  obtain ⟨hl, hr⟩ := natLog2_spec h0
  rcases Nat.lt_trichotomy (natLog2 n) k with hlt | heq | hgt
  · exfalso
    have : (2 : Nat) ^ (natLog2 n + 1) ≤ 2 ^ k :=
      Nat.pow_le_pow_right (by omega) (by omega)
    omega
  · exact heq
  · exfalso
    have : (2 : Nat) ^ (k + 1) ≤ 2 ^ natLog2 n :=
      Nat.pow_le_pow_right (by omega) (by omega)
    omega

theorem natLog2_mul_pow {n : Nat} (j : Nat) (h : n ≠ 0) :
    natLog2 (n * 2 ^ j) = natLog2 n + j := by
  obtain ⟨hl, hr⟩ := natLog2_spec h
  apply natLog2_unique
  · rw [pow_add]
    exact Nat.mul_le_mul_right _ hl
  · rw [show natLog2 n + j + 1 = natLog2 n + 1 + j by omega, pow_add]
    exact (Nat.mul_lt_mul_right (Nat.pos_pow_of_pos j (by omega))).mpr hr

theorem natLog2_le_of_le {n k : Nat} (h0 : n ≠ 0) (h : n < 2 ^ (k + 1)) :
    natLog2 n ≤ k := by
  obtain ⟨hl, -⟩ := natLog2_spec h0
  by_contra hgt
  have : (2 : Nat) ^ (k + 1) ≤ 2 ^ natLog2 n :=
    Nat.pow_le_pow_right (by omega) (by omega)
  omega

theorem roundHalfEven_exact {a q : Nat} (hq : q ≠ 0) :
    roundHalfEven (a * q) q = a := by
  unfold roundHalfEven
  rw [Nat.mul_div_cancel a (by omega), Nat.mul_mod_left]
  rw [if_pos (by omega)]

theorem roundHalfEven_one (a : Nat) : roundHalfEven a 1 = a := by
  simpa using roundHalfEven_exact (a := a) (q := 1) (by omega)

/-- Parsing an integer below `2 ^ 53` is exact: the double is the
integer, stored with a full 53-bit significand. -/
theorem f64OfDec_int_exact {n : Nat} (h0 : n ≠ 0) (h53 : n < 2 ^ 53) :
    f64OfDec n 0 = .val ⟨n * 2 ^ (52 - natLog2 n), (natLog2 n : Int) - 52⟩ := by
  obtain ⟨hl, hr⟩ := natLog2_spec h0
  have hL : natLog2 n ≤ 52 := natLog2_le_of_le h0 (by omega)
  have hone : natLog2 (10 ^ 0) = 0 := rfl
  have hcond : pow2le10 ((natLog2 n : Int) - (natLog2 (10 ^ 0) : Int)) n 0 = true := by
    unfold pow2le10
    rw [hone]
    simp only [Nat.cast_zero, Int.sub_zero]
    rw [if_pos (show (0 : Int) ≤ (natLog2 n : Int) by omega)]
    simp only [pow_zero, mul_one, Int.toNat_natCast]
    exact decide_eq_true hl
  have hexp : decExp n 0 = (natLog2 n : Int) := by
    unfold decExp
    rw [if_pos hcond, hone]
    simp
  have hs : sigExp (decExp n 0) = (natLog2 n : Int) - 52 := by
    rw [hexp]
    unfold sigExp
    omega
  have hms : decSig n 0 (sigExp (decExp n 0)) = n * 2 ^ (52 - natLog2 n) := by
    rw [hs]
    unfold decSig
    by_cases hc : 0 ≤ (natLog2 n : Int) - 52
    · have h52 : natLog2 n = 52 := by omega
      rw [if_pos hc]
      simp [h52, roundHalfEven_one]
    · rw [if_neg hc]
      have : ((-((natLog2 n : Int) - 52)).toNat) = 52 - natLog2 n := by omega
      rw [this]
      simpa using roundHalfEven_one (n * 2 ^ (52 - natLog2 n))
  have hm0 : n * 2 ^ (52 - natLog2 n) ≠ 0 := by
    have := Nat.pos_pow_of_pos (52 - natLog2 n) (show 0 < 2 by omega)
    positivity
  have hlogm : natLog2 (n * 2 ^ (52 - natLog2 n)) = 52 := by
    rw [natLog2_mul_pow _ h0]
    omega
  unfold f64OfDec
  rw [if_neg h0, hms, hs]
  unfold mkF64
  rw [if_neg hm0, hlogm, if_neg (by omega)]

/-- Monotonicity of the base-2 logarithm floor. -/
theorem natLog2_mono {a b : Nat} (h0 : a ≠ 0) (h : a ≤ b) :
    natLog2 a ≤ natLog2 b := by
  have hb0 : b ≠ 0 := by omega
  obtain ⟨hla, -⟩ := natLog2_spec h0
  obtain ⟨-, hrb⟩ := natLog2_spec hb0
  by_contra hgt
  have : (2 : Nat) ^ (natLog2 b + 1) ≤ 2 ^ natLog2 a :=
    Nat.pow_le_pow_right (by omega) (by omega)
  omega

/-- Multiplying that integer double by a nonzero factor with product
below `2 ^ 53` is exact. -/
theorem f64MulNat_int_exact {n k : Nat} (h0 : n ≠ 0) (hk : k ≠ 0)
    (h53 : n * k < 2 ^ 53) :
    f64MulNat (.val ⟨n * 2 ^ (52 - natLog2 n), (natLog2 n : Int) - 52⟩) k =
      .val ⟨n * k * 2 ^ (52 - natLog2 (n * k)), (natLog2 (n * k) : Int) - 52⟩ := by
  have hnk0 : n * k ≠ 0 := by positivity
  have hle : n ≤ n * k := Nat.le_mul_of_pos_right n (by omega)
  have hLk : natLog2 (n * k) ≤ 52 := natLog2_le_of_le hnk0 (by omega)
  have hmono : natLog2 n ≤ natLog2 (n * k) := natLog2_mono h0 hle
  have hm0val : n * 2 ^ (52 - natLog2 n) * k = n * k * 2 ^ (52 - natLog2 n) := by ring
  have hm0ne : n * 2 ^ (52 - natLog2 n) * k ≠ 0 := by positivity
  have hlogm0 : natLog2 (n * 2 ^ (52 - natLog2 n) * k) =
      natLog2 (n * k) + (52 - natLog2 n) := by
    rw [hm0val, natLog2_mul_pow _ hnk0]
  have hsig : sigExp ((natLog2 n : Int) - 52 +
      ((natLog2 (n * k) + (52 - natLog2 n) : Nat) : Int)) =
      (natLog2 (n * k) : Int) - 52 := by
    unfold sigExp
    push_cast
    omega
  have hms : mulSig (n * 2 ^ (52 - natLog2 n) * k) ((natLog2 n : Int) - 52)
      ((natLog2 (n * k) : Int) - 52) = n * k * 2 ^ (52 - natLog2 (n * k)) := by
    unfold mulSig
    by_cases hc : (natLog2 (n * k) : Int) - 52 ≤ (natLog2 n : Int) - 52
    · have heq : natLog2 (n * k) = natLog2 n := by omega
      rw [if_pos hc,
        show (((natLog2 n : Int) - 52) - ((natLog2 (n * k) : Int) - 52)).toNat = 0 by omega,
        pow_zero, mul_one, hm0val, heq]
    · rw [if_neg hc]
      have hsplit : 52 - natLog2 n =
          (52 - natLog2 (n * k)) + (natLog2 (n * k) - natLog2 n) := by omega
      rw [show ((((natLog2 (n * k) : Int) - 52) - ((natLog2 n : Int) - 52)).toNat) =
          natLog2 (n * k) - natLog2 n by omega,
        hm0val, hsplit, pow_add, ← mul_assoc]
      exact roundHalfEven_exact (by positivity)
  have hmne : n * k * 2 ^ (52 - natLog2 (n * k)) ≠ 0 := by positivity
  have hlogm : natLog2 (n * k * 2 ^ (52 - natLog2 (n * k))) = 52 := by
    rw [natLog2_mul_pow _ hnk0]
    omega
  show (if n * 2 ^ (52 - natLog2 n) * k = 0 then F64.val ⟨0, 0⟩
    else mkF64 (mulSig (n * 2 ^ (52 - natLog2 n) * k) ((natLog2 n : Int) - 52)
        (sigExp ((natLog2 n : Int) - 52 + (natLog2 (n * 2 ^ (52 - natLog2 n) * k) : Int))))
      (sigExp ((natLog2 n : Int) - 52 + (natLog2 (n * 2 ^ (52 - natLog2 n) * k) : Int)))) = _
  rw [if_neg hm0ne, hlogm0, hsig, hms]
  unfold mkF64
  rw [if_neg hmne, hlogm, if_neg (by omega)]

/-- The full pipeline on an integer number of units: parse, multiply
and format are all exact when the seconds product stays below
`2 ^ 53`. -/
theorem f64_pipeline_int_exact {n k : Nat} (hk : k ≠ 0) (h53 : n * k < 2 ^ 53) :
    f64Fmt0 (f64MulNat (f64OfDec n 0) k) = toString (n * k) := by
  rcases Nat.eq_zero_or_pos n with rfl | hn
  · simp [f64OfDec, f64MulNat, f64Fmt0]
  · have h0 : n ≠ 0 := by omega
    rw [f64OfDec_int_exact h0 (by
      calc n ≤ n * k := Nat.le_mul_of_pos_right n (by omega)
        _ < 2 ^ 53 := h53)]
    rw [f64MulNat_int_exact h0 hk h53]
    have hnk0 : n * k ≠ 0 := by positivity
    have hLk : natLog2 (n * k) ≤ 52 := natLog2_le_of_le hnk0 (by omega)
    simp only [f64Fmt0]
    by_cases hc : (0 : Int) ≤ (natLog2 (n * k) : Int) - 52
    · have h52 : natLog2 (n * k) = 52 := by omega
      rw [if_pos hc]
      simp [h52]
    · rw [if_neg hc,
        show ((-((natLog2 (n * k) : Int) - 52)).toNat) = 52 - natLog2 (n * k) by omega,
        roundHalfEven_exact (by positivity)]

/-! ### Claims about the domain value parsers -/

/-- The optional unit scanner always yields the unit shape: one unit
character or nothing. -/
theorem wlUnit_parts (t : List Char) :
    ∃ u, wlUnit t = wlInputUnit u ∧ (∀ c, u = some c → isUnitChar c = true) := by
  cases t with
  | nil => exact ⟨none, rfl, fun c h => by cases h⟩
  | cons c r =>
    by_cases hc : isUnitChar c = true
    · refine ⟨some c, by rw [wlUnit, if_pos hc]; rfl, ?_⟩
      intro d h
      injection h with h2
      subst h2
      exact hc
    · refine ⟨none, by rw [wlUnit, if_neg hc]; rfl, ?_⟩
      intro d h
      cases h

/-- The fraction-and-unit scanner always yields the grammar shape. -/
theorem wlFracUnit_parts (dw : List Char) :
    ∃ frac u, wlFracUnit dw = wlInputFrac frac ++ wlInputUnit u ∧
      (∀ fs, frac = some fs → fs ≠ [] ∧ fs.all chIsDigit = true) ∧
      (∀ c, u = some c → isUnitChar c = true) := by
  cases dw with
  | nil =>
    refine ⟨none, none, rfl, ?_, ?_⟩
    · intro fs h
      cases h
    · intro c h
      cases h
  | cons c r =>
    by_cases hcond : c = '.' ∧ ¬(r.takeWhile chIsDigit).isEmpty
    · obtain ⟨u, hu, hu2⟩ := wlUnit_parts (r.dropWhile chIsDigit)
      refine ⟨some (r.takeWhile chIsDigit), u, ?_, ?_, hu2⟩
      · rw [wlFracUnit, if_pos hcond, hu]
        rfl
      · intro fs hf
        injection hf with hf2
        subst hf2
        refine ⟨?_, ?_⟩
        · intro hnil
          exact hcond.2 (by rw [hnil]; rfl)
        · exact List.all_eq_true.mpr fun x hx => List.mem_takeWhile_imp hx
    · obtain ⟨u, hu, hu2⟩ := wlUnit_parts (c :: r)
      refine ⟨none, u, ?_, ?_, hu2⟩
      · rw [wlFracUnit, if_neg hcond, hu]
        rfl
      · intro fs h
        cases h

/-- Every successful anchored attempt returns a match of the grammar
shape: digits, optional fraction, optional unit. -/
theorem wlTryAt_parts {l m : List Char} (h : wlTryAt l = some m) :
    ∃ ds frac u, m = ds ++ (wlInputFrac frac ++ wlInputUnit u) ∧ ds ≠ [] ∧
      ds.all chIsDigit = true ∧
      (∀ fs, frac = some fs → fs ≠ [] ∧ fs.all chIsDigit = true) ∧
      (∀ c, u = some c → isUnitChar c = true) := by
  unfold wlTryAt at h
  by_cases hemp : (l.takeWhile chIsDigit).isEmpty = true
  · rw [if_pos hemp] at h
    cases h
  · rw [if_neg hemp] at h
    injection h with h2
    obtain ⟨frac, u, hfu, hfrac, hu⟩ := wlFracUnit_parts (l.dropWhile chIsDigit)
    refine ⟨l.takeWhile chIsDigit, frac, u, ?_, ?_, ?_, hfrac, hu⟩
    · rw [← h2, hfu]
    · intro hnil
      exact hemp (by rw [hnil]; rfl)
    · exact List.all_eq_true.mpr fun x hx => List.mem_takeWhile_imp hx

/-- Every match of the scanner comes from some anchored attempt. -/
theorem wlFind_parts : ∀ {l m : List Char}, wlFind l = some m →
    ∃ t, wlTryAt t = some m := by
  intro l
  induction l with
  | nil => intro m h; cases h
  | cons c r ih =>
    intro m h
    rw [wlFind] at h
    rcases htry : wlTryAt (c :: r) with _ | m2
    · rw [htry] at h
      exact ih h
    · rw [htry] at h
      exact ⟨c :: r, htry.trans h⟩

/-- An input containing a digit anywhere always yields a match. -/
theorem wlFind_some_of_digit : ∀ {l : List Char},
    (∃ c ∈ l, chIsDigit c = true) → ∃ m, wlFind l = some m := by
  intro l
  induction l with
  | nil => rintro ⟨c, hc, -⟩; cases hc
  | cons c r ih =>
    intro h
    by_cases hc : chIsDigit c = true
    · rw [wlFind_head_digit r hc]
      unfold wlTryAt
      rw [List.takeWhile_cons_of_pos hc]
      simp
    · rw [wlFind, wlTryAt_none_head r (by simpa using hc)]
      rcases h with ⟨d, hd, hdd⟩
      rcases List.mem_cons.mp hd with rfl | hdr
      · exact absurd hdd hc
      · exact ih ⟨d, hdr, hdd⟩

/-- On any input with a digit the whole pipeline succeeds: the match has
the grammar shape, so the pop and the number parse cannot fail. -/
theorem tryFrom_ok_of_digit {s : String} (h : ∃ c ∈ s.toList, chIsDigit c = true) :
    ∃ w, WorklogDuration.tryFrom s = .ok w := by
  obtain ⟨m, hfind⟩ := wlFind_some_of_digit h
  obtain ⟨t, htry⟩ := wlFind_parts hfind
  obtain ⟨ds, frac, u, rfl, hds, hall, hfrac, hu⟩ := wlTryAt_parts htry
  have hpop := wlPop_eq ds frac u hds hall hfrac hu
  have hpop1 : (wlPop ((ds ++ (wlInputFrac frac ++ wlInputUnit u)).map rsToLower)).1 =
      ds ++ wlInputFrac frac := by rw [hpop]
  have hpop2 : (wlPop ((ds ++ (wlInputFrac frac ++ wlInputUnit u)).map rsToLower)).2 =
      specMult u := by rw [hpop]
  have hparse := parseDec_whole ds frac hds hall (fun fs hf => (hfrac fs hf).2)
  refine ⟨⟨f64Fmt0 (f64MulNat
    (f64OfDec (digitsToNat (ds ++ frac.getD [])) (frac.getD []).length)
    (specMult u))⟩, ?_⟩
  unfold WorklogDuration.tryFrom
  simp only [hfind, hpop1, hparse, hpop2]

/-- The seconds-per-unit table never selects a zero multiplier. -/
theorem specMult_ne_zero (u : Option Char) : specMult u ≠ 0 := by
  rcases u with _ | c
  · decide
  · simp only [specMult]
    split_ifs <;> decide

/-! ### Claims about the domain value parsers -/

/-- Claim C5, counterexample. The claim says parsing fails for every
input whose first token is not numeric (no leading numeric token).  The
input `"abc 5m"` has no leading numeric token — its first token is
`abc` — yet `WorklogDuration::try_from` succeeds with `"300"`, because
the regex searches anywhere in the input rather than anchoring at the
start. -/
theorem claim_C5_counterexample :
    WorklogDuration.tryFrom "abc 5m" = .ok ⟨"300"⟩ := rfl

/-- Claim C5, amended. `WorklogDuration::try_from` fails with the
`Malformed worklog duration` validation error exactly when the input
contains no digit anywhere (not merely no leading numeric token): any
input with a digit in any position yields a match of the searched,
unanchored regex and parses successfully from the first numeric
token. -/
theorem claim_C5 (s : String) :
    ((∀ c ∈ s.toList, chIsDigit c = false) →
      WorklogDuration.tryFrom s = .error (.TryFromError "Malformed worklog duration")) ∧
    ((∃ c ∈ s.toList, chIsDigit c = true) →
      ∃ w, WorklogDuration.tryFrom s = .ok w) := by
  refine ⟨fun h => ?_, tryFrom_ok_of_digit⟩
  unfold WorklogDuration.tryFrom
  rw [wlFind_none h]

/-- Claim C5, witness. `"abc"` contains no digit and is rejected;
`"abc 5m"` contains one and succeeds. -/
theorem claim_C5_witness :
    (WorklogDuration.tryFrom "abc" =
      .error (.TryFromError "Malformed worklog duration")) ∧
    ∃ w, WorklogDuration.tryFrom "abc 5m" = .ok w :=
  ⟨(claim_C5 "abc").1 (by decide), (claim_C5 "abc 5m").2 ⟨'5', by decide, by decide⟩⟩

/-- Claim C6, amended. For every input of the worklog grammar — a digit
run, an optional fraction, an optional unit in `m`/`h`/`d`/`w` case
insensitively (minutes when absent) — the parser succeeds and returns
the precision-0 formatting of the IEEE 754 double-precision product of
the parsed number with the seconds-per-unit table 60/3600/28800/144000;
for a whole number of units this equals the exact product whenever that
product is below `2 ^ 53`, but not in general (see the
counterexample). -/
theorem claim_C6 (ds : List Char) (frac : Option (List Char)) (u : Option Char)
    (hds : ds ≠ []) (hall : ds.all chIsDigit = true)
    (hfrac : ∀ fs, frac = some fs → fs ≠ [] ∧ fs.all chIsDigit = true)
    (hu : ∀ c, u = some c → isUnitChar c = true) :
    WorklogDuration.tryFrom (String.mk (ds ++ (wlInputFrac frac ++ wlInputUnit u))) =
      .ok ⟨f64Fmt0 (f64MulNat
        (f64OfDec (digitsToNat (ds ++ frac.getD [])) (frac.getD []).length)
        (specMult u))⟩ ∧
    (frac = none → digitsToNat ds * specMult u < 2 ^ 53 →
      WorklogDuration.tryFrom (String.mk (ds ++ wlInputUnit u)) =
        .ok ⟨toString (digitsToNat ds * specMult u)⟩) := by
  refine ⟨tryFrom_whole_eq ds frac u hds hall hfrac hu, ?_⟩
  rintro rfl h53
  have heq := tryFrom_whole_eq ds none u hds hall (fun fs hf => by cases hf) hu
  rw [show ds ++ wlInputUnit u = ds ++ (wlInputFrac none ++ wlInputUnit u) from rfl]
  rw [heq]
  rw [show digitsToNat (ds ++ (none : Option (List Char)).getD []) = digitsToNat ds by
    rw [Option.getD_none, List.append_nil]]
  rw [show (((none : Option (List Char)).getD []).length) = 0 from rfl]
  rw [f64_pipeline_int_exact (specMult_ne_zero u) h53]

/-- Claim C6, counterexample. The claim says the reported seconds are
the parsed value times the unit multiplier.  At the valid input
`"9007199254740993"` (a whole number of minutes) the program converts
through `f64`, which rounds `2 ^ 53 + 1` to `2 ^ 53`, and returns
`"540431955284459520"`; the exact product is `540431955284459580`. -/
theorem claim_C6_counterexample :
    WorklogDuration.tryFrom "9007199254740993" = .ok ⟨"540431955284459520"⟩ ∧
    9007199254740993 * 60 = 540431955284459580 ∧
    ("540431955284459520" : String) ≠ "540431955284459580" :=
  ⟨rfl, by norm_num, by decide⟩

/-- Claim C6, witness. `"2H"` parses to `"7200"` through the theorem:
two hours at 3600 seconds per hour, exactly representable. -/
theorem claim_C6_witness : WorklogDuration.tryFrom "2H" = .ok ⟨"7200"⟩ := by
  have h := (claim_C6 ['2'] none (some 'H') (by decide) (by decide)
    (fun fs hf => by cases hf)
    (fun c hc => by injection hc with hc2; subst hc2; decide)).2 rfl (by decide)
  exact h

/-- Claim C2, counterexample. The claim says every `IssueKey` in
existence — including ones obtained by deserializing a response body —
satisfies the key pattern, with the fallible parser the only
constructor.  But the derived serde `Deserialize` of the newtype wraps
any string without validation (and src/types.rs additionally declares
the inner field `pub`), so deserializing `"hello"` yields an `IssueKey`
whose text does not match the pattern. -/
theorem claim_C2_counterexample :
    isIssueExact ((IssueKey.deserializeStr "hello").val.toList) = false := by decide

/-- Claim C2, amended. Every `IssueKey` produced by the fallible parser
`IssueKey::try_from` satisfies the pattern "two or more uppercase
letters, hyphen, one or more digits" (the parser uppercases the input
before matching); `IssueKey` values obtained by deserialization or
direct construction are not validated. -/
theorem claim_C2 (s : String) (key : IssueKey)
    (h : IssueKey.tryFrom s = .ok key) : isIssueExact key.val.toList = true := by
  unfold IssueKey.tryFrom at h
  rcases hf : issueFind (upperChars s) with _ | m
  · rw [hf] at h; cases h
  · rw [hf] at h
    simp only [Except.ok.injEq] at h
    subst h
    obtain ⟨i, htry, -⟩ := issueFind_sound hf
    exact (issueTryAt_sound htry).2

/-- Claim C2, witness. Parsing `"jb-1"` yields `JB-1`, which satisfies
the pattern. -/
theorem claim_C2_witness :
    isIssueExact (IssueKey.val ⟨"JB-1"⟩).toList = true :=
  claim_C2 "jb-1" ⟨"JB-1"⟩ rfl

/-! ### Lemmas about URL joining -/

theorem splitAtFirst_none {p : Char → Bool} {l : List Char} (h : ∀ c ∈ l, p c = false) :
    splitAtFirst p l = (l, []) := by
  induction l with
  | nil => rfl
  | cons c r ih =>
    unfold splitAtFirst
    rw [if_neg (by simp [h c (by simp)])]
    rw [ih (fun c hc => h c (by simp [hc]))]

theorem splitPathQueryFrag_plain {l : List Char} (hl : l ≠ [])
    (h : ∀ c ∈ l, c ≠ '?' ∧ c ≠ '#') :
    splitPathQueryFrag l = (String.mk l, none, none) := by
  have hnone : ∀ c ∈ l, (fun c => c = '?' || c = '#' : Char → Bool) c = false := by
    intro c hc
    obtain ⟨h1, h2⟩ := h c hc
    simp [h1, h2]
  unfold splitPathQueryFrag
  rw [splitAtFirst_none hnone]
  have hne : l.isEmpty ≠ true := by
    cases l with
    | nil => exact absurd rfl hl
    | cons c r => simp
  simp only [if_neg hne]

/-- Joining an absolute-path reference that carries no query or
fragment keeps scheme and authority and replaces path, query and
fragment. -/
theorem urlJoin_plain (u : Url) (ref : String)
    (h1 : ref.toList.head? = some '/')
    (h2 : ∀ c ∈ ref.toList, c ≠ '?' ∧ c ≠ '#') :
    urlJoin u ref = some ⟨u.scheme, u.host, ref, none, none⟩ := by
  unfold urlJoin
  split
  case _ c rest heq =>
    rw [heq] at h1
    simp only [List.head?_cons, Option.some.injEq] at h1
    subst h1
    rw [if_pos rfl, ← heq]
    rw [splitPathQueryFrag_plain (by rw [heq]; simp) h2]
    rfl
  case _ heq =>
    rw [heq] at h1
    cases h1

theorem urlJoin_isSome (base : Url) (ref : String)
    (h : ref.toList.head? = some '/') : ∃ u2, urlJoin base ref = some u2 := by
  unfold urlJoin
  split
  case _ c rest heq =>
    rw [heq] at h
    simp only [List.head?_cons, Option.some.injEq] at h
    subst h
    rw [if_pos rfl]
    exact ⟨_, rfl⟩
  case _ heq =>
    rw [heq] at h
    cases h

/-! ### Claims about the client operations -/

/-- Claim C1, counterexample. The claim says a search on a non-anonymous
client whose response carries an anonymous-downgrade diagnostic header
returns an authentication error even on a success status.  The client
below is built with an API token (its default headers carry an
`Authorization` entry), and the reply has status 200 and both
diagnostic headers — yet `query_issues` returns `Ok` with the decoded
body: the operation never looks at response headers, and
`JiraClientError` has no authentication variant at all. -/
theorem claim_C1_counterexample :
    JiraAPIClient.new cfgApi = .ok clientApi ∧
    (∃ v, hmGet clientApi.clientHeaders "Authorization" = some v) ∧
    downgradeResp.status = 200 ∧
    downgradeResp.headers =
      [("X-Seraph-LoginReason", "AUTHENTICATED_FAILED"), ("X-AUSERNAME", "anonymous")] ∧
    clientApi.queryIssues "assignee = currentUser()" downgradeResp =
      .ok ⟨none, none, none, none, none, none⟩ :=
  ⟨rfl, ⟨_, rfl⟩, rfl, rfl, rfl⟩

/-- Claim C1, amended. `query_issues` performs no response
classification beyond body decoding: for every client — whatever its
credential — and every transport reply whose body decodes to `b`, the
call returns `Ok b`, ignoring the status code and all response headers
(including the failed-authentication and anonymous-user diagnostics). -/
theorem claim_C1 (client : JiraAPIClient) (query : String) (resp : HttpResponse)
    (b : PostIssueQueryResponseBody) (h : resp.bodyDecoded = some b) :
    client.queryIssues query resp = .ok b := by
  unfold JiraAPIClient.queryIssues queryIssuesUrl
  rw [show urlJoin client.url "/rest/api/latest/search" =
    some ⟨client.url.scheme, client.url.host, "/rest/api/latest/search", none, none⟩ from
      urlJoin_plain client.url "/rest/api/latest/search" rfl (by decide), h]

/-- Claim C1, witness. The amended theorem applied to the downgraded
reply. -/
theorem claim_C1_witness :
    clientApi.queryIssues "assignee = currentUser()" downgradeResp =
      .ok ⟨none, none, none, none, none, none⟩ :=
  claim_C1 clientApi "assignee = currentUser()" downgradeResp _ rfl

/-- Claim C3, counterexample. The claim says the search operation
accepts an optional field subset and expand options and that the caller
drives paging via `startAt`.  But `query_issues` takes only the query
string: the request body it builds — here for a concrete client and
query — always has `startAt = 0` and `fields = ["summary"]`; there is
no parameter through which a caller could pass a field subset, an
expand list, or a page offset. -/
theorem claim_C3_counterexample :
    queryIssuesBody clientApi "project = TEST" =
      { jql := "project = TEST", startAt := 0, maxResults := 50,
        fields := ["summary"] } := rfl

/-- Claim C3, amended. `query_issues` accepts just a query string and
sends one page per call: the body takes its `maxResults` ceiling from
the client configuration, while `startAt` is fixed at 0 and `fields`
at `["summary"]` — the caller cannot drive paging or choose fields. -/
theorem claim_C3 (client : JiraAPIClient) (query : String) :
    (queryIssuesBody client query).jql = query ∧
    (queryIssuesBody client query).maxResults = client.maxResults ∧
    (queryIssuesBody client query).startAt = 0 ∧
    (queryIssuesBody client query).fields = ["summary"] :=
  ⟨rfl, rfl, rfl, rfl⟩

/-- Claim C4, counterexample. The claim says the base URL is normalized
at construction by stripping path, query and fragment.  Constructing a
client from a URL with all three shows nothing is stripped: the stored
URL still carries `/foo`, `bar` and `baz`. -/
theorem claim_C4_counterexample :
    JiraAPIClient.new cfgApi = .ok clientApi ∧
    clientApi.url = ⟨"https", "example.com", "/foo", some "bar", some "baz"⟩ ∧
    clientApi.url.query ≠ none ∧ clientApi.url.fragment ≠ none ∧
    clientApi.url.path ≠ "/" :=
  ⟨rfl, rfl, by simp [clientApi], by simp [clientApi], by simp [clientApi]⟩

/-- Claim C4, amended. Construction parses the configured URL verbatim,
retaining any path, query or fragment.  Every request URL is
nevertheless of the claimed shape, because each operation joins an
absolute path `/rest/api/<version>/<operation-path>` onto the base and
RFC 3986 join replaces the path, query and fragment of the base: for every
base URL and every such reference (starting with `/`, free of `?` and
`#`), the joined URL keeps only scheme and authority and carries the
reference as its path. -/
theorem claim_C4 (u : Url) (ref : String)
    (h1 : ref.toList.head? = some '/')
    (h2 : ∀ c ∈ ref.toList, c ≠ '?' ∧ c ≠ '#') :
    urlJoin u ref = some ⟨u.scheme, u.host, ref, none, none⟩ :=
  urlJoin_plain u ref h1 h2

/-- Claim C4, witness. Joining the search path onto the un-stripped base
URL of `clientApi` replaces `/foo?bar#baz` entirely. -/
theorem claim_C4_witness :
    urlJoin clientApi.url "/rest/api/latest/search" =
      some ⟨"https", "example.com", "/rest/api/latest/search", none, none⟩ :=
  claim_C4 clientApi.url "/rest/api/latest/search" rfl (by decide)

/-- Claim C8. `post_worklog` validates the body before anything is sent:
when `time_spent` and `time_spent_seconds` are both set or both unset
it returns the request-body validation error and no request value is
produced; when exactly one is set, validation passes and the request
(worklog URL and body) is dispatched. -/
theorem claim_C8 (client : JiraAPIClient) (issueKey : IssueKey)
    (body : PostWorklogBody) :
    (body.timeSpent.isSome = body.timeSpentSeconds.isSome →
      client.postWorklog issueKey body = .error (.JiraRequestBodyError
        "time_spent and time_spent_seconds are both Some() or None")) ∧
    (body.timeSpent.isSome ≠ body.timeSpentSeconds.isSome →
      ∃ u, client.postWorklog issueKey body = .ok (u, body)) := by
  have hhead : ("/rest/api/latest/issue/" ++ issueKey.val ++ "/worklog").toList.head? =
      some '/' := by
    show (("/rest/api/latest/issue/" ++ issueKey.val ++ "/worklog").data.head? = _)
    simp [String.data_append]
  obtain ⟨u2, hu2⟩ := urlJoin_isSome client.url _ hhead
  unfold JiraAPIClient.postWorklog
  rw [hu2]
  constructor
  · intro h
    rcases hts : body.timeSpent with _ | ts <;>
      rcases hss : body.timeSpentSeconds with _ | ss <;> simp_all
  · intro h
    refine ⟨u2, ?_⟩
    rcases hts : body.timeSpent with _ | ts <;>
      rcases hss : body.timeSpentSeconds with _ | ss <;> simp_all

/-- Claim C8, witness. A body with only `time_spent_seconds` set is
dispatched; one with neither set is rejected before any send. -/
theorem claim_C8_witness :
    (∃ u, clientApi.postWorklog ⟨"AB-1"⟩
      ⟨"done", "now", none, some "3600"⟩ = .ok (u, ⟨"done", "now", none, some "3600"⟩)) ∧
    clientApi.postWorklog ⟨"AB-1"⟩ ⟨"done", "now", none, none⟩ =
      .error (.JiraRequestBodyError
        "time_spent and time_spent_seconds are both Some() or None") := by
  constructor
  · exact (claim_C8 clientApi ⟨"AB-1"⟩ ⟨"done", "now", none, some "3600"⟩).2 (by simp)
  · exact (claim_C8 clientApi ⟨"AB-1"⟩ ⟨"done", "now", none, none⟩).1 (by simp)

/-- Claim C9. The header set of `build_headers` is a pure function of
the credential: `Accept` and `Content-Type` are always
`application/json`; `Anonymous` carries no `Authorization` entry;
`ApiToken` carries `Basic` followed by the no-padding standard base64
of `login:token`, marked sensitive; `PersonalAccessToken` carries
`Bearer` followed by the token, marked sensitive.  The last conjunct
grounds the encoding on `ApiToken{"a","b"}`, whose value is
`Basic YTpi`. -/
theorem claim_C9 (credentials : Credential) :
    hmGet (buildHeaders credentials) "Accept" =
      some ⟨"Accept", "application/json", false⟩ ∧
    hmGet (buildHeaders credentials) "Content-Type" =
      some ⟨"Content-Type", "application/json", false⟩ ∧
    (match credentials with
     | .Anonymous => hmGet (buildHeaders credentials) "Authorization" = none
     | .ApiToken login token =>
       hmGet (buildHeaders credentials) "Authorization" = some ⟨"Authorization",
         "Basic " ++ String.mk (encodeB64 (utf8Bytes (login ++ ":" ++ token))), true⟩
     | .PersonalAccessToken token =>
       hmGet (buildHeaders credentials) "Authorization" =
         some ⟨"Authorization", "Bearer " ++ token, true⟩) ∧
    hmGet (buildHeaders (.ApiToken "a" "b")) "Authorization" =
      some ⟨"Authorization", "Basic YTpi", true⟩ := by
  cases credentials <;> exact ⟨rfl, rfl, rfl, rfl⟩

theorem getAssignableUsersUrl_eq (client : JiraAPIClient)
    (params : GetAssignableUserParams) (cloud : Bool)
    (h : params.project.isSome || params.issueKey.isSome) :
    getAssignableUsersUrl client params cloud =
      .ok (setQuery ⟨client.url.scheme, client.url.host,
          "/rest/api/latest/user/assignable/search", none, none⟩
        ("maxResults=" ++ toString (params.maxResults.getD 1000) ++
          assignableSuffix params cloud)) := by
  unfold getAssignableUsersUrl
  rw [urlJoin_plain client.url "/rest/api/latest/user/assignable/search" rfl (by decide)]
  rcases params with ⟨un, pr, ik, mr⟩
  simp only at h ⊢
  rcases ik with _ | k <;> rcases pr with _ | p <;> rcases un with _ | us <;>
    simp_all [assignableSuffix, setQuery, String.append_assoc] <;>
    (try rcases cloud with _ | _) <;>
    simp_all [String.append_assoc]

/-- Claim C10. For parameters that pass validation (at least one of
`project` / `issue_key` set) with `max_results` unspecified,
`get_assignable_users` builds a request URL whose query string begins
with `maxResults=1000`: the page limit silently defaults to the
constant 1000 — the configured `max_results` of the client plays no part in
this query (the URL built does not depend on it). -/
theorem claim_C10 (client : JiraAPIClient) (params : GetAssignableUserParams)
    (cloud : Bool) (h1 : params.maxResults = none)
    (h2 : params.project.isSome || params.issueKey.isSome) :
    ∃ u2, getAssignableUsersUrl client params cloud = .ok u2 ∧
      u2.query = some ("maxResults=1000" ++ assignableSuffix params cloud) := by
  refine ⟨_, getAssignableUsersUrl_eq client params cloud h2, ?_⟩
  rw [h1]
  rfl

/-- Claim C10, witness. A parameter set with only `project` present and
no page limit yields a query starting with `maxResults=1000`. -/
theorem claim_C10_witness :
    ∃ u2, getAssignableUsersUrl clientApi ⟨none, some "TEST", none, none⟩ false =
        .ok u2 ∧
      u2.query = some ("maxResults=1000" ++
        assignableSuffix ⟨none, some "TEST", none, none⟩ false) :=
  claim_C10 clientApi ⟨none, some "TEST", none, none⟩ false rfl (by simp)
